import Mathlib

/-!
# minui/graphics_cn.c : UTF-8 decoding, glyph lookup, text drawing, overscan, flip

A shallow embedding of the text and drawing layer of `graphics_cn.c`.

Conventions of the embedding.

* A byte of a C string is a `Nat` below 256; a C string is the list of its bytes,
  the terminating NUL being the (implicit) byte after the last element.
* `int` values are `Int`, `unsigned` values are `Nat`.  Arithmetic that C performs
  in `unsigned` (every expression with an `unsigned` operand) is reduced modulo
  `2 ^ 32`; a result stored back into an `int` is read as a two's complement
  number (`to_int`).  Additions of two `int`s are exact: C leaves their overflow
  undefined, so there is no wrapped value to describe.
* `wchar_t` is the 32-bit type of the target (Android, Linux); pointers are 32 bits
  wide, as the cast `(unsigned) bits` in `get_framebuffer` presupposes.
* Whether plain `char` is signed is left to the ABI: every function that reads a
  `char` takes the flag `char_signed`.
* Calls into the rasterizer (`GGLContext`) are recorded as a list of `GGLCall`s.
-/

namespace Minui

/-! ## Machine integers -/

/-- Conversion of an `int` to `unsigned` (32 bits). -/
def to_unsigned (z : Int) : Nat := (z % 4294967296).toNat

/-- Conversion of an `unsigned` (32 bits) to `int`: two's complement reading. -/
def to_int (u : Nat) : Int :=
  if u % 4294967296 < 2147483648 then ((u % 4294967296 : Nat) : Int)
  else ((u % 4294967296 : Nat) : Int) - 4294967296

/-- The `int` obtained when a plain `char` holding the byte `b` is promoted:
sign extended when `char` is signed, as a 32-bit two's complement word. -/
def char_to_int (char_signed : Bool) (b : Nat) : Nat :=
  if char_signed && decide (128 ≤ b) then b + 4294967040 else b

/-- The byte `s[i]` of a C string; past the last byte sits the terminating NUL. -/
def byte_at (s : List Nat) (i : Nat) : Nat := s.getD i 0

/-- C `strlen`: the number of bytes before the first NUL. -/
def strlen : List Nat → Nat
  | [] => 0
  | b :: s => if b = 0 then 0 else strlen s + 1

/-! ## UTF-8 decoder -/

/-- One row of `struct utf8_table`. -/
structure utf8_table where
  cmask : Nat
  cval : Nat
  shift : Nat
  lmask : Nat
  lval : Nat
  deriving Repr, DecidableEq

/-- The array `utf8_table[]`, its end marker (a row with `cmask = 0`) included. -/
def utf8_table_rows : List utf8_table :=
  [ ⟨0x80, 0x00, 0*6, 0x7F, 0⟩,
    ⟨0xE0, 0xC0, 1*6, 0x7FF, 0x80⟩,
    ⟨0xF0, 0xE0, 2*6, 0xFFFF, 0x800⟩,
    ⟨0xF8, 0xF0, 3*6, 0x1FFFFF, 0x10000⟩,
    ⟨0xFC, 0xF8, 4*6, 0x3FFFFFF, 0x200000⟩,
    ⟨0xFE, 0xFC, 5*6, 0x7FFFFFFF, 0x4000000⟩,
    ⟨0, 0, 0, 0, 0⟩ ]

/-- What a call of `utf8_mbtowc` leaves behind: the returned `int` and the value
stored through `p` (`none` when `*p` is not written). -/
structure mbtowc_result where
  ret : Int
  p : Option Nat
  deriving Repr, DecidableEq

/-- The `for` loop of `utf8_mbtowc`, `t` running over the rows that are left.
`nc` and `l` are the locals of the C function, `c0` the promoted first byte. -/
def utf8_mbtowc_loop (char_signed : Bool) (s : List Nat) (n : Int) (c0 : Nat) :
    List utf8_table → Nat → Nat → mbtowc_result
  | [], nc, _ => ⟨-(nc : Int), none⟩
  | t :: ts, nc, l =>
    if t.cmask = 0 then ⟨-(nc : Int), none⟩
    else
      let nc := nc + 1
      if c0 &&& t.cmask = t.cval then
        let l := l &&& t.lmask
        if l < t.lval then ⟨-(nc : Int), none⟩
        else ⟨(nc : Int), some l⟩
      else if n ≤ (nc : Int) then ⟨0, none⟩
      else
        let c := (char_to_int char_signed (byte_at s nc) ^^^ 0x80) &&& 0xFF
        if c &&& 0xC0 ≠ 0 then ⟨-(nc : Int), none⟩
        else utf8_mbtowc_loop char_signed s n c0 ts nc (((l <<< 6) ||| c) % 4294967296)

/-- The function `utf8_mbtowc(p, s, n)`. -/
def utf8_mbtowc (char_signed : Bool) (s : List Nat) (n : Int) : mbtowc_result :=
  let c0 := char_to_int char_signed (byte_at s 0)
  utf8_mbtowc_loop char_signed s n c0 utf8_table_rows 0 c0

/-! ### The classic UTF-8 encoding, as a reference -/

/-- Number of bytes of the shortest classic UTF-8 encoding of `c`. -/
def utf8_len (c : Nat) : Nat :=
  if c < 0x80 then 1
  else if c < 0x800 then 2
  else if c < 0x10000 then 3
  else if c < 0x200000 then 4
  else if c < 0x4000000 then 5
  else 6

/-- Smallest value that needs `k` bytes (the `lval` column). -/
def utf8_min (k : Nat) : Nat :=
  match k with
  | 2 => 0x80
  | 3 => 0x800
  | 4 => 0x10000
  | 5 => 0x200000
  | 6 => 0x4000000
  | _ => 0

/-- Number of values a `k`-byte sequence can carry (`lmask + 1`). -/
def utf8_cap (k : Nat) : Nat :=
  match k with
  | 1 => 0x80
  | 2 => 0x800
  | 3 => 0x10000
  | 4 => 0x200000
  | 5 => 0x4000000
  | 6 => 0x80000000
  | _ => 0

/-- The `k`-byte classic UTF-8 form of the value `c`. -/
def utf8_encode_with (k : Nat) (c : Nat) : List Nat :=
  match k with
  | 1 => [c % 128]
  | 2 => [0xC0 + c / 64 % 32, 0x80 + c % 64]
  | 3 => [0xE0 + c / 4096 % 16, 0x80 + c / 64 % 64, 0x80 + c % 64]
  | 4 => [0xF0 + c / 262144 % 8, 0x80 + c / 4096 % 64, 0x80 + c / 64 % 64, 0x80 + c % 64]
  | 5 => [0xF8 + c / 16777216 % 4, 0x80 + c / 262144 % 64, 0x80 + c / 4096 % 64,
          0x80 + c / 64 % 64, 0x80 + c % 64]
  | 6 => [0xFC + c / 1073741824 % 2, 0x80 + c / 16777216 % 64, 0x80 + c / 262144 % 64,
          0x80 + c / 4096 % 64, 0x80 + c / 64 % 64, 0x80 + c % 64]
  | _ => []

/-- Shortest classic UTF-8 encoding of the code point `c`. -/
def utf8_encode (c : Nat) : List Nat := utf8_encode_with (utf8_len c) c

/-- Sequence length announced by a lead byte; `none` for bytes that cannot lead
(`0x80..0xBF`, `0xFE`, `0xFF`). -/
def utf8_seq_len (b : Nat) : Option Nat :=
  if b < 0x80 then some 1
  else if b < 0xC0 then none
  else if b < 0xE0 then some 2
  else if b < 0xF0 then some 3
  else if b < 0xF8 then some 4
  else if b < 0xFC then some 5
  else if b < 0xFE then some 6
  else none

/-- A continuation byte: top two bits `10`. -/
def is_cont (b : Nat) : Prop := b / 64 = 2

instance (b : Nat) : Decidable (is_cont b) := by unfold is_cont; infer_instance

/-- Modulus that extracts the payload bits of the lead byte of a `k`-byte sequence. -/
def utf8_lead_mod (k : Nat) : Nat :=
  match k with
  | 1 => 128
  | 2 => 32
  | 3 => 16
  | 4 => 8
  | 5 => 4
  | 6 => 2
  | _ => 1

/-- Value carried by a sequence: the payload bits of the lead byte followed by the
low six bits of every continuation byte. -/
def utf8_value (k : Nat) (b0 : Nat) (conts : List Nat) : Nat :=
  conts.foldl (fun v b => v * 64 + b % 64) (b0 % utf8_lead_mod k)

/-- The local `l` of `utf8_mbtowc` after `i` continuation bytes have been shifted in. -/
def utf8_acc (char_signed : Bool) (s : List Nat) : Nat → Nat
  | 0 => char_to_int char_signed (byte_at s 0)
  | i + 1 => (utf8_acc char_signed s i * 64 + byte_at s (i + 1) % 64) % 4294967296

/-- A C string made of the shortest encodings of the code points `cps`, in order. -/
def utf8_string (cps : List Nat) : List Nat := (cps.map utf8_encode).flatten

/-! ## Surfaces, the font and the rasterizer -/

/-- The fields of `GGLSurface` the module touches; `data` is the address of the pixels. -/
structure GGLSurface where
  width : Nat
  height : Nat
  stride : Nat
  data : Nat
  format : Nat
  deriving Repr, DecidableEq

/-- The structure `GRFont`: arrays are given by their entries, `fontdata i` being the
address held in `fontdata[i]`; `cwidth` and `cheight` hold `unsigned char`s. -/
structure GRFont where
  texture : GGLSurface
  fontdata : Nat → Nat
  count : Nat
  unicodemap : Nat → Nat
  cwidth : Nat → Nat
  cheight : Nat → Nat
  ascent : Nat

/-- A call through the `GGLContext` function table, with the arguments that vary. -/
inductive GGLCall where
  | color4xv (r g b a : Int)
  | texEnvi_replace
  | texGeni_S_one_to_one
  | texGeni_T_one_to_one
  | enable_texture_2d
  | disable_texture_2d
  | bindTexture (t : GGLSurface)
  | texCoord2i (s t : Int)
  | recti (l t r b : Int)
  deriving Repr, DecidableEq

/-- The sum `x + u` of an `int` and an `unsigned`, stored back into an `int`. -/
def int_add_unsigned (x : Int) (u : Nat) : Int := to_int (to_unsigned x + u)

/-- The difference `x - u` of an `int` and an `unsigned`, stored back into an `int`. -/
def int_sub_unsigned (x : Int) (u : Nat) : Int := to_int (to_unsigned (x - (u : Int)))

/-- The globals of the module that the modelled functions read or write. -/
structure Globals where
  gr_font : GRFont
  gr_context : Bool
  fb0_width : Nat
  fb0_height : Nat
  gr_active_fb : Nat
  double_buffering : Nat
  overscan_percent : Int
  overscan_offset_x : Int
  overscan_offset_y : Int
  has_overlay : Bool
  vi_xres : Nat
  vi_yres : Nat
  vi_yres_virtual : Nat
  vi_yoffset : Nat
  fi_line_length : Nat
  fi_smem_len : Nat
  leftSplit : Int
  rightSplit : Int

/-! ## Glyph lookup and text -/

/-- The scan of `getCharID`: `i` is the loop variable, the first argument counts the
entries from `i` up to `count`; falling out of the loop returns `0`. -/
def getCharID_loop (gfont : GRFont) (unicode : Nat) : Nat → Nat → Nat
  | 0, _ => 0
  | rem + 1, i => if unicode = gfont.unicodemap i then i else getCharID_loop gfont unicode rem (i + 1)

/-- The function `getCharID(s, pFont)` with the font already resolved.  `unicode0` is the
indeterminate initial content of the local `unicode`, which `utf8_mbtowc` overwrites only
when it succeeds.  The tables of a font fit a 32-bit address space, so the index is far
below `2 ^ 31` and its conversion to the `int` result is exact. -/
def getCharID (char_signed : Bool) (unicode0 : Nat) (gfont : GRFont) (s : List Nat) : Nat :=
  let unicode := ((utf8_mbtowc char_signed s (strlen s)).p).getD unicode0
  getCharID_loop gfont unicode gfont.count 0

/-- The function `gr_measure(s)` (the definition that is compiled, not the one commented
out above it). -/
def gr_measure (char_signed : Bool) (unicode0 : Nat) (g : Globals) (s : List Nat) : Int :=
  let l := (utf8_mbtowc char_signed s (strlen s)).ret
  if l ≤ 0 then 0
  else ((g.gr_font.cwidth (getCharID char_signed unicode0 g.gr_font s) : Nat) : Int)

/-- How a run of the loop of `gr_text` ended. -/
inductive text_status where
  | returned
  | out_of_fuel
  | out_of_string
  deriving Repr, DecidableEq

/-- Outcome of `gr_text`: the value of `x` (the returned value when `status` is
`returned`) and the rasterizer calls issued. -/
structure text_result where
  status : text_status
  x : Int
  calls : List GGLCall
  deriving Repr, DecidableEq

/-- The `while (*s)` loop of `gr_text`.  The pointer `s` is the offset `pos` into the
string `str`; the first argument bounds the number of iterations.  `n` is `unsigned`, so
a negative result of `utf8_mbtowc` becomes `2 ^ 32 - j`, the test `n <= 0` sees a positive
number, and `s += n` on 32-bit pointers moves `s` back by `j` bytes; a pointer moved
before the first byte of the string ends the model with `out_of_string`. -/
def gr_text_loop (char_signed : Bool) (unicode0 : Nat) (gfont : GRFont) (str : List Nat)
    (y : Int) : Nat → Nat → Int → text_result
  | 0, _, x => ⟨text_status.out_of_fuel, x, []⟩
  | fuel + 1, pos, x =>
    let s := str.drop pos
    if byte_at s 0 = 0 then ⟨text_status.returned, x, []⟩
    else if byte_at s 0 < 0x20 then gr_text_loop char_signed unicode0 gfont str y fuel (pos + 1) x
    else
      let off := getCharID char_signed unicode0 gfont s
      let n := to_unsigned (utf8_mbtowc char_signed s (strlen s)).ret
      if n ≤ 0 then ⟨text_status.returned, x, []⟩
      else
        let width := gfont.cwidth off
        let height := gfont.cheight off
        let font_ftex : GGLSurface :=
          { gfont.texture with width := width, height := height, stride := width,
                               data := gfont.fontdata off }
        let drawn := [GGLCall.bindTexture font_ftex, GGLCall.texCoord2i (0 - x) (0 - y),
          GGLCall.recti x y (int_add_unsigned x width) (int_add_unsigned y height)]
        let x1 := int_add_unsigned x width
        if (pos : Int) + to_int n < 0 then ⟨text_status.out_of_string, x1, drawn⟩
        else
          let r := gr_text_loop char_signed unicode0 gfont str y fuel
            ((pos : Int) + to_int n).toNat x1
          { r with calls := drawn ++ r.calls }

/-- The function `gr_text(x, y, s, bold)`; `fuel` bounds the iterations of its loop. -/
def gr_text (char_signed : Bool) (unicode0 : Nat) (g : Globals) (fuel : Nat)
    (x y : Int) (s : List Nat) (_bold : Int) : text_result :=
  let x := x + g.overscan_offset_x
  let y := y + g.overscan_offset_y
  let y := int_sub_unsigned y g.gr_font.ascent
  let r := gr_text_loop char_signed unicode0 g.gr_font s y fuel 0 x
  { r with calls := [GGLCall.texEnvi_replace, GGLCall.texGeni_S_one_to_one,
      GGLCall.texGeni_T_one_to_one, GGLCall.enable_texture_2d] ++ r.calls }

/-! ## Drawing with the overscan offset -/

/-- The function `gr_get_width(surface)`; `none` is the `NULL` surface. -/
def gr_get_width (surface : Option GGLSurface) : Nat :=
  match surface with
  | none => 0
  | some s => s.width

/-- The function `gr_get_height(surface)`. -/
def gr_get_height (surface : Option GGLSurface) : Nat :=
  match surface with
  | none => 0
  | some s => s.height

/-- The function `gr_fill(x1, y1, x2, y2)`. -/
def gr_fill (g : Globals) (x1 y1 x2 y2 : Int) : List GGLCall :=
  let x1 := x1 + g.overscan_offset_x
  let y1 := y1 + g.overscan_offset_y
  let x2 := x2 + g.overscan_offset_x
  let y2 := y2 + g.overscan_offset_y
  [GGLCall.disable_texture_2d, GGLCall.recti x1 y1 x2 y2]

/-- The function `gr_blit(source, sx, sy, w, h, dx, dy)`. -/
def gr_blit (g : Globals) (source : Option GGLSurface) (sx sy w h dx dy : Int) :
    List GGLCall :=
  match g.gr_context, source with
  | true, some src =>
    let dx := dx + g.overscan_offset_x
    let dy := dy + g.overscan_offset_y
    [GGLCall.bindTexture src, GGLCall.texEnvi_replace, GGLCall.texGeni_S_one_to_one,
      GGLCall.texGeni_T_one_to_one, GGLCall.enable_texture_2d,
      GGLCall.texCoord2i (sx - dx) (sy - dy), GGLCall.recti dx dy (dx + w) (dy + h)]
  | _, _ => []

/-- The function `gr_texticon(x, y, icon)`. -/
def gr_texticon (g : Globals) (x y : Int) (icon : Option GGLSurface) : List GGLCall :=
  match g.gr_context, icon with
  | true, some ic =>
    let x := x + g.overscan_offset_x
    let y := y + g.overscan_offset_y
    [GGLCall.bindTexture ic, GGLCall.texEnvi_replace, GGLCall.texGeni_S_one_to_one,
      GGLCall.texGeni_T_one_to_one, GGLCall.enable_texture_2d,
      GGLCall.texCoord2i (-x) (-y),
      GGLCall.recti x y (int_add_unsigned x (gr_get_width (some ic)))
        (int_add_unsigned y (gr_get_height (some ic)))]
  | _, _ => []

/-- The function `gr_fb_width()`: `width` is unsigned, so the subtraction is too. -/
def gr_fb_width (g : Globals) : Int :=
  to_int (to_unsigned ((g.fb0_width : Int) - 2 * g.overscan_offset_x))

/-- The function `gr_fb_height()`. -/
def gr_fb_height (g : Globals) : Int :=
  to_int (to_unsigned ((g.fb0_height : Int) - 2 * g.overscan_offset_y))

/-- One component of `gr_color`: `((c << 8) | c) + 1` on the promoted `unsigned char`. -/
def color_component (c : Nat) : Int := ((((c <<< 8) ||| c) + 1 : Nat) : Int)

/-- The function `gr_color(r, g, b, a)`. -/
def gr_color (r g b a : Nat) : List GGLCall :=
  [GGLCall.color4xv (color_component r) (color_component g) (color_component b)
    (color_component a)]

/-! ## Framebuffer set-up and flip -/

/-- What the kernel answers for `/dev/graphics/fb0`: the geometry, the values of the last
`FBIOGET_FSCREENINFO` and the verdict of `target_has_overlay(fi.id)`. -/
structure fb_device where
  xres : Nat
  yres : Nat
  line_length : Nat
  smem_len : Nat
  overlay : Bool
  deriving Repr, DecidableEq

/-- The macro `ALIGN(x, align)` on `unsigned` operands. -/
def ALIGN (x align : Nat) : Nat :=
  ((x + (align - 1)) % 4294967296) &&& (4294967295 - (align - 1))

/-- The statics as their initializers leave them; the font and the context are filled in
by `gr_init`. -/
def initial_globals (font : GRFont) (OVERSCAN_PERCENT : Int) : Globals :=
  { gr_font := font, gr_context := false, fb0_width := 0, fb0_height := 0,
    gr_active_fb := 0, double_buffering := 0, overscan_percent := OVERSCAN_PERCENT,
    overscan_offset_x := 0, overscan_offset_y := 0, has_overlay := false,
    vi_xres := 0, vi_yres := 0, vi_yres_virtual := 0, vi_yoffset := 0,
    fi_line_length := 0, fi_smem_len := 0, leftSplit := 0, rightSplit := 0 }

/-- The function `get_framebuffer` on the path where every `open`, `ioctl` and `mmap`
succeeds: the geometry, the overscan offsets and the double buffering decision. -/
def get_framebuffer (PIXEL_SIZE : Nat) (g : Globals) (dev : fb_device) : Globals :=
  let line_length :=
    if dev.overlay then (ALIGN dev.xres 32 * PIXEL_SIZE) % 4294967296 else dev.line_length
  let g1 : Globals :=
    { g with has_overlay := dev.overlay, vi_xres := dev.xres, vi_yres := dev.yres,
             fi_line_length := line_length, fi_smem_len := dev.smem_len,
             overscan_offset_x :=
               to_int ((dev.xres * to_unsigned g.overscan_percent) % 4294967296 / 100),
             overscan_offset_y :=
               to_int ((dev.yres * to_unsigned g.overscan_percent) % 4294967296 / 100),
             fb0_width := dev.xres, fb0_height := dev.yres }
  if (dev.yres * line_length * 2) % 4294967296 > dev.smem_len then g1
  else { g1 with double_buffering := 1 }

/-- A request to the display hardware made by `gr_flip`. -/
inductive fb_event where
  | allocate_overlay
  | overlay_display_frame (size : Nat)
  | free_overlay
  | memcpy_to_framebuffer (index : Nat) (size : Nat)
  | put_vscreeninfo (yres_virtual yoffset : Nat)
  deriving Repr, DecidableEq

/-- The function `set_active_framebuffer(n)`. -/
def set_active_framebuffer (g : Globals) (n : Nat) : Globals × List fb_event :=
  if n > 1 ∨ g.double_buffering = 0 then (g, [])
  else
    let g1 : Globals :=
      { g with vi_yres_virtual := (g.vi_yres * 2) % 4294967296,
               vi_yoffset := (n * g.vi_yres) % 4294967296 }
    (g1, [fb_event.put_vscreeninfo g1.vi_yres_virtual g1.vi_yoffset])

/-- The function `gr_init` on its successful path, with the font that `gr_init_font`
builds and the device that `get_framebuffer` finds. -/
def gr_init (PIXEL_SIZE : Nat) (font : GRFont) (dev : fb_device) (g : Globals) : Globals :=
  let g1 : Globals := { g with gr_context := true, gr_font := font }
  let g2 := get_framebuffer PIXEL_SIZE g1 dev
  let g3 : Globals := { g2 with gr_active_fb := 0 }
  if g3.has_overlay then g3 else (set_active_framebuffer g3 0).1

/-- The function `gr_flip()`; `display_result` is what `overlay_display_frame` returns on
the overlay path.  The pixels themselves (and their reversal under
`BOARD_HAS_FLIPPED_SCREEN`) are not part of the state. -/
def gr_flip (g : Globals) (display_result : Int) : Globals × List fb_event :=
  if g.has_overlay then
    (g, [fb_event.allocate_overlay,
         fb_event.overlay_display_frame ((g.fi_line_length * g.vi_yres) % 4294967296)] ++
        (if display_result < 0 then [fb_event.free_overlay] else []))
  else
    let g1 : Globals :=
      if g.double_buffering ≠ 0 then { g with gr_active_fb := (g.gr_active_fb + 1) &&& 1 }
      else g
    let r := set_active_framebuffer g1 g1.gr_active_fb
    (r.1, fb_event.memcpy_to_framebuffer g1.gr_active_fb
            ((g1.fi_line_length * g1.vi_yres) % 4294967296) :: r.2)

/-- The globals after `k` calls of `gr_flip` on the direct path. -/
def flips (g : Globals) : Nat → Globals
  | 0 => g
  | k + 1 => (gr_flip (flips g k) 0).1

/-! ## Display split -/

/-- C `isspace` in the "C" locale. -/
def isspace (b : Nat) : Bool := b == 0x20 || (decide (0x09 ≤ b) && decide (b ≤ 0x0D))

/-- C `isdigit`. -/
def isdigit (b : Nat) : Bool := decide (0x30 ≤ b) && decide (b ≤ 0x39)

/-- The digits that `atoi` consumes, accumulated in base ten. -/
def atoi_digits (acc : Nat) : List Nat → Nat
  | [] => acc
  | b :: s => if isdigit b then atoi_digits (acc * 10 + (b - 0x30)) s else acc

/-- The leading white space that `atoi` skips. -/
def skip_space : List Nat → List Nat
  | [] => []
  | b :: s => if isspace b then skip_space s else b :: s

/-- What `strtol` answers when the value does not fit: the nearest bound of `long`
(32 bits on the target). -/
def clamp_int (z : Int) : Int :=
  if z < -2147483648 then -2147483648 else if 2147483647 < z then 2147483647 else z

/-- C `atoi` (that is `(int) strtol(s, NULL, 10)`): white space, an optional sign, then
the longest run of decimal digits. -/
def atoi (s : List Nat) : Int :=
  let t := skip_space s
  if byte_at t 0 = 0x2D then clamp_int (-(atoi_digits 0 (t.drop 1) : Int))
  else if byte_at t 0 = 0x2B then clamp_int (atoi_digits 0 (t.drop 1) : Int)
  else clamp_int (atoi_digits 0 t : Int)

/-- C `strpbrk(s, " ")`: the suffix that starts at the first space, if there is one
before the terminating NUL. -/
def strpbrk_space : List Nat → Option (List Nat)
  | [] => none
  | b :: s => if b = 0 then none else if b = 0x20 then some (b :: s) else strpbrk_space s

/-- The function `setDisplaySplit()`.  `file` is the content of
`/sys/class/graphics/fb0/msm_fb_split`, `none` when `fopen` fails.  `fread` fills the
zeroed 64-byte buffer `split` with at most 64 bytes; a content of 64 bytes or more leaves
the buffer without terminator, which the model does not describe. -/
def setDisplaySplit (g : Globals) (file : Option (List Nat)) : Globals :=
  match file with
  | none => g
  | some content =>
    let split := content.take 64
    if split.length = 0 then g
    else
      let g1 : Globals := { g with leftSplit := atoi split }
      match strpbrk_space split with
      | some rght => { g1 with rightSplit := atoi (rght.drop 1) }
      | none => g1

/-- The function `getLeftSplit()`. -/
def getLeftSplit (g : Globals) : Int :=
  let lSplit := to_int (g.vi_xres / 2)
  if g.leftSplit ≠ 0 then g.leftSplit else lSplit

/-- The function `getRightSplit()`. -/
def getRightSplit (g : Globals) : Int := g.rightSplit

/-- The function `isDisplaySplit()`, with `MAX_DISPLAY_DIM = 2048`. -/
def isDisplaySplit (g : Globals) : Bool :=
  if g.vi_xres > 2048 then true
  else if getRightSplit g ≠ 0 then true
  else false

/-- Value of a string of decimal digits. -/
def decimal_value (ds : List Nat) : Nat := ds.foldl (fun a d => a * 10 + (d - 0x30)) 0

/-! ## Reference functions for text -/

/-- The glyph that `getCharID` finds for a decoded code point. -/
def glyph_index (gfont : GRFont) (cp : Nat) : Nat := getCharID_loop gfont cp gfont.count 0

/-- Sum of `cwidth[getCharID(cp)]` over the code points `cp ≥ 0x20`, in order. -/
def text_advance (gfont : GRFont) : List Nat → Nat
  | [] => 0
  | cp :: cps =>
    if cp < 0x20 then text_advance gfont cps
    else gfont.cwidth (glyph_index gfont cp) + text_advance gfont cps

/-- The cursor after the code points `cps`, advanced the way `x += width` does it. -/
def advance_x (gfont : GRFont) : Int → List Nat → Int
  | x, [] => x
  | x, cp :: cps =>
    if cp < 0x20 then advance_x gfont x cps
    else advance_x gfont (int_add_unsigned x (gfont.cwidth (glyph_index gfont cp))) cps

/-- The three rasterizer calls that draw the glyph `off` with its left edge at `x` and
its top at `y`. -/
def glyph_draw (gfont : GRFont) (x y : Int) (off : Nat) : List GGLCall :=
  [GGLCall.bindTexture
      { gfont.texture with width := gfont.cwidth off, height := gfont.cheight off,
                           stride := gfont.cwidth off, data := gfont.fontdata off },
    GGLCall.texCoord2i (0 - x) (0 - y),
    GGLCall.recti x y (int_add_unsigned x (gfont.cwidth off))
      (int_add_unsigned y (gfont.cheight off))]

/-- The calls that draw the glyphs of the code points `cp ≥ 0x20` of `cps` one after the
other from `x` on. -/
def glyph_calls (gfont : GRFont) (y : Int) : Int → List Nat → List GGLCall
  | _, [] => []
  | x, cp :: cps =>
    if cp < 0x20 then glyph_calls gfont y x cps
    else glyph_draw gfont x y (glyph_index gfont cp) ++
      glyph_calls gfont y (int_add_unsigned x (gfont.cwidth (glyph_index gfont cp))) cps

/-- The four calls with which `gr_text` sets the texture mode up. -/
def text_setup : List GGLCall :=
  [GGLCall.texEnvi_replace, GGLCall.texGeni_S_one_to_one, GGLCall.texGeni_T_one_to_one,
    GGLCall.enable_texture_2d]

/-! ## Sample data -/

/-- A font of two glyphs, `A` and `B`, 10 pixels wide and 18 high. -/
def sample_font : GRFont :=
  { texture := ⟨0, 0, 0, 0, 0⟩, fontdata := fun i => 4096 + 180 * i, count := 2,
    unicodemap := fun i => [0x41, 0x42].getD i 0, cwidth := fun _ => 10,
    cheight := fun _ => 18, ascent := 18 }

/-- A 540 x 960 RGB565 device without overlay whose memory holds one frame. -/
def sample_device : fb_device :=
  { xres := 540, yres := 960, line_length := 1080, smem_len := 1036800, overlay := false }

/-- The globals after `gr_init` on the sample device with 0% overscan. -/
def sample_globals : Globals := gr_init 2 sample_font sample_device (initial_globals sample_font 0)

/-- The globals after `gr_init` on a 500 x 800 device with 1% overscan: the offsets are
`(5, 8)`. -/
def sample_globals_overscan : Globals :=
  gr_init 2 sample_font ⟨500, 800, 1000, 1600000, false⟩ (initial_globals sample_font 1)

/-! ## Lemmas on bytes and on the loop of the decoder -/


set_option maxRecDepth 100000 in
theorem cont_val : ∀ b, b < 256 → ∀ sg : Bool,
    (char_to_int sg b ^^^ 0x80) &&& 0xFF = (b + 128) % 256 := by
  decide

set_option maxRecDepth 100000 in
theorem cont_test : ∀ c, c < 256 → (c &&& 0xC0 = 0 ↔ c < 64) := by
  decide

theorem shl6_or (l c : Nat) (h : c < 64) : (l <<< 6) ||| c = l * 64 + c := by
  rw [Nat.shiftLeft_eq, Nat.mul_comm]
  exact (Nat.mul_add_lt_is_or (i := 6) h l).symm

theorem loop_match (sg : Bool) (s : List Nat) (n : Int) (c0 : Nat) (t : utf8_table)
    (ts : List utf8_table) (nc l : Nat) (ht : t.cmask ≠ 0) (hm : c0 &&& t.cmask = t.cval) :
    utf8_mbtowc_loop sg s n c0 (t :: ts) nc l =
      if l &&& t.lmask < t.lval then ⟨-((nc + 1 : Nat) : Int), none⟩
      else ⟨((nc + 1 : Nat) : Int), some (l &&& t.lmask)⟩ := by
  rw [utf8_mbtowc_loop]
  simp only [if_neg ht, if_pos hm]

theorem loop_short (sg : Bool) (s : List Nat) (n : Int) (c0 : Nat) (t : utf8_table)
    (ts : List utf8_table) (nc l : Nat) (ht : t.cmask ≠ 0) (hm : c0 &&& t.cmask ≠ t.cval)
    (hn : n ≤ ((nc + 1 : Nat) : Int)) :
    utf8_mbtowc_loop sg s n c0 (t :: ts) nc l = ⟨0, none⟩ := by
  rw [utf8_mbtowc_loop]
  simp only [if_neg ht, if_neg hm, if_pos hn]

theorem loop_bad (sg : Bool) (s : List Nat) (n : Int) (c0 : Nat) (t : utf8_table)
    (ts : List utf8_table) (nc l : Nat) (ht : t.cmask ≠ 0) (hm : c0 &&& t.cmask ≠ t.cval)
    (hn : ((nc + 1 : Nat) : Int) < n) (hb : byte_at s (nc + 1) < 256)
    (hc : ¬ is_cont (byte_at s (nc + 1))) :
    utf8_mbtowc_loop sg s n c0 (t :: ts) nc l = ⟨-((nc + 1 : Nat) : Int), none⟩ := by
  have hv := cont_val _ hb sg
  have ht2 := cont_test ((byte_at s (nc + 1) + 128) % 256) (Nat.mod_lt _ (by decide))
  have hne : (byte_at s (nc + 1) + 128) % 256 &&& 0xC0 ≠ 0 := by
    rw [ne_eq, ht2]; unfold is_cont at hc; omega
  rw [utf8_mbtowc_loop]
  simp only [if_neg ht, if_neg hm, if_neg (not_le.mpr hn), hv, if_pos hne]

theorem loop_cont (sg : Bool) (s : List Nat) (n : Int) (c0 : Nat) (t : utf8_table)
    (ts : List utf8_table) (nc l : Nat) (ht : t.cmask ≠ 0) (hm : c0 &&& t.cmask ≠ t.cval)
    (hn : ((nc + 1 : Nat) : Int) < n) (hc : is_cont (byte_at s (nc + 1))) :
    utf8_mbtowc_loop sg s n c0 (t :: ts) nc l =
      utf8_mbtowc_loop sg s n c0 ts (nc + 1)
        ((l * 64 + byte_at s (nc + 1) % 64) % 4294967296) := by
  have hb : byte_at s (nc + 1) < 256 := by unfold is_cont at hc; omega
  have hv : (char_to_int sg (byte_at s (nc + 1)) ^^^ 0x80) &&& 0xFF = byte_at s (nc + 1) % 64 := by
    rw [cont_val _ hb sg]; unfold is_cont at hc; omega
  have hlt : byte_at s (nc + 1) % 64 < 64 := Nat.mod_lt _ (by decide)
  have ht2 : ¬ (byte_at s (nc + 1) % 64 &&& 0xC0 ≠ 0) := by
    rw [ne_eq, not_not, cont_test _ (by omega)]; exact hlt
  rw [utf8_mbtowc_loop]
  simp only [if_neg ht, if_neg hm, if_neg (not_le.mpr hn), hv, if_neg ht2, shl6_or _ _ hlt]

theorem seq_len_lt (b0 k : Nat) (hk : utf8_seq_len b0 = some k) : b0 < 256 := by
  unfold utf8_seq_len at hk
  split_ifs at hk <;> omega

set_option maxRecDepth 100000 in
theorem table_row (i : Nat) (hi : i < 6) :
    ∃ t, utf8_table_rows.drop i = t :: utf8_table_rows.drop (i + 1) ∧ t.cmask ≠ 0 ∧
      (∀ b, b < 256 → ∀ sg : Bool,
        (char_to_int sg b &&& t.cmask = t.cval ↔ utf8_seq_len b = some (i + 1))) ∧
      t.lval = utf8_min (i + 1) ∧ (∀ l, l &&& t.lmask = l % utf8_cap (i + 1)) := by
  interval_cases i
  · exact ⟨_, rfl, by decide, by decide, rfl, fun l => Nat.and_pow_two_sub_one_eq_mod l 7⟩
  · exact ⟨_, rfl, by decide, by decide, rfl, fun l => Nat.and_pow_two_sub_one_eq_mod l 11⟩
  · exact ⟨_, rfl, by decide, by decide, rfl, fun l => Nat.and_pow_two_sub_one_eq_mod l 16⟩
  · exact ⟨_, rfl, by decide, by decide, rfl, fun l => Nat.and_pow_two_sub_one_eq_mod l 21⟩
  · exact ⟨_, rfl, by decide, by decide, rfl, fun l => Nat.and_pow_two_sub_one_eq_mod l 26⟩
  · exact ⟨_, rfl, by decide, by decide, rfl, fun l => Nat.and_pow_two_sub_one_eq_mod l 31⟩

/-- After `i` rows that do not match and `i` well-formed continuation bytes the loop
stands at row `i` with `nc = i` and `l = utf8_acc s i`. -/
theorem loop_run (sg : Bool) (s : List Nat) (n : Int) (i : Nat) (hi : i ≤ 6)
    (hb : byte_at s 0 < 256)
    (hnm : ∀ k, 1 ≤ k → k ≤ i → utf8_seq_len (byte_at s 0) ≠ some k)
    (hcont : ∀ k, 1 ≤ k → k ≤ i → is_cont (byte_at s k))
    (hn : (i : Int) < n ∨ i = 0) :
    utf8_mbtowc sg s n =
      utf8_mbtowc_loop sg s n (char_to_int sg (byte_at s 0)) (utf8_table_rows.drop i) i
        (utf8_acc sg s i) := by
  induction i with
  | zero => rfl
  | succ i ih =>
    obtain ⟨t, hd, ht, hm, -, -⟩ := table_row i (by omega)
    rw [ih (by omega) (fun k h1 h2 => hnm k h1 (by omega))
      (fun k h1 h2 => hcont k h1 (by omega)) (by omega), hd,
      loop_cont sg s n _ t _ i _ ht
        (fun h => hnm (i + 1) (by omega) (by omega) ((hm _ hb sg).mp h))
        (by omega) (hcont (i + 1) (by omega) (by omega))]
    rfl

/-- The lead byte announces `k` bytes, the `k - 1` continuation bytes are well formed and
are all supplied: the loop stops in row `k` and compares the masked value with `lval`. -/
theorem decode_at (sg : Bool) (s : List Nat) (n : Int) (k : Nat)
    (hk : utf8_seq_len (byte_at s 0) = some k)
    (hcont : ∀ i, 1 ≤ i → i < k → is_cont (byte_at s i))
    (hn : (k : Int) ≤ n ∨ k = 1) :
    utf8_mbtowc sg s n =
      if utf8_acc sg s (k - 1) % utf8_cap k < utf8_min k then ⟨-(k : Int), none⟩
      else ⟨(k : Int), some (utf8_acc sg s (k - 1) % utf8_cap k)⟩ := by
  have hb := seq_len_lt _ _ hk
  have hk6 : 1 ≤ k ∧ k ≤ 6 := by
    unfold utf8_seq_len at hk
    split_ifs at hk <;> simp at hk <;> omega
  obtain ⟨t, hd, ht, hm, hlv, hlm⟩ := table_row (k - 1) (by omega)
  have e : k - 1 + 1 = k := by omega
  rw [e] at hd hm hlv hlm
  rw [loop_run sg s n (k - 1) (by omega) hb (fun i h1 h2 h => by rw [hk] at h; simp at h; omega)
      (fun i h1 h2 => hcont i h1 (by omega)) (by omega), hd,
    loop_match sg s n _ t _ (k - 1) _ ht ((hm _ hb sg).mpr hk), hlv, hlm, e]

/-- The byte at position `j` is the first that is not a continuation byte, and no row up
to `j` matches the lead byte: the result is `-j`. -/
theorem decode_bad (sg : Bool) (s : List Nat) (n : Int) (j : Nat) (hj1 : 1 ≤ j) (hj6 : j ≤ 6)
    (hjn : (j : Int) < n) (hb0 : byte_at s 0 < 256) (hbj : byte_at s j < 256)
    (hlead : ∀ k, utf8_seq_len (byte_at s 0) = some k → j < k)
    (hgood : ∀ i, 1 ≤ i → i < j → is_cont (byte_at s i))
    (hbad : ¬ is_cont (byte_at s j)) :
    utf8_mbtowc sg s n = ⟨-(j : Int), none⟩ := by
  obtain ⟨t, hd, ht, hm, -, -⟩ := table_row (j - 1) (by omega)
  have e : j - 1 + 1 = j := by omega
  rw [e] at hd hm
  have hnm : ∀ k, 1 ≤ k → k ≤ j → utf8_seq_len (byte_at s 0) ≠ some k :=
    fun k _ h2 h => absurd (hlead k h) (by omega)
  have hbj2 : byte_at s (j - 1 + 1) < 256 := by rw [e]; exact hbj
  have hbad2 : ¬ is_cont (byte_at s (j - 1 + 1)) := by rw [e]; exact hbad
  rw [loop_run sg s n (j - 1) (by omega) hb0 (fun k h1 h2 => hnm k h1 (by omega))
      (fun i h1 h2 => hgood i h1 (by omega)) (by omega), hd,
    loop_bad sg s n _ t _ (j - 1) _ ht (fun h => hnm j hj1 le_rfl ((hm _ hb0 sg).mp h))
      (by omega) hbj2 hbad2, e]

/-- Only `m` bytes are supplied, they are well formed so far, and no row up to `m`
matches the lead byte: the result is `0`. -/
theorem decode_short (sg : Bool) (s : List Nat) (n : Int) (m : Nat) (hm1 : 1 ≤ m) (hm6 : m ≤ 6)
    (hn : n ≤ (m : Int)) (hn' : ((m : Int) - 1 < n) ∨ m = 1) (hb0 : byte_at s 0 < 256)
    (hlead : ∀ k, utf8_seq_len (byte_at s 0) = some k → m < k)
    (hgood : ∀ i, 1 ≤ i → i < m → is_cont (byte_at s i)) :
    utf8_mbtowc sg s n = ⟨0, none⟩ := by
  obtain ⟨t, hd, ht, hm, -, -⟩ := table_row (m - 1) (by omega)
  have e : m - 1 + 1 = m := by omega
  rw [e] at hd hm
  have hnm : ∀ k, 1 ≤ k → k ≤ m → utf8_seq_len (byte_at s 0) ≠ some k :=
    fun k _ h2 h => absurd (hlead k h) (by omega)
  rw [loop_run sg s n (m - 1) (by omega) hb0 (fun k h1 h2 => hnm k h1 (by omega))
      (fun i h1 h2 => hgood i h1 (by omega)) (by omega), hd,
    loop_short sg s n _ t _ (m - 1) _ ht (fun h => hnm m hm1 le_rfl ((hm _ hb0 sg).mp h))
      (by omega)]

theorem byte_at_append_left (l rest : List Nat) (i : Nat) (h : i < l.length) :
    byte_at (l ++ rest) i = byte_at l i := by
  unfold byte_at
  rw [List.getD_eq_getElem?_getD, List.getD_eq_getElem?_getD, List.getElem?_append_left h]

theorem utf8_len_range (c : Nat) : 1 ≤ utf8_len c ∧ utf8_len c ≤ 6 := by
  unfold utf8_len
  split_ifs <;> omega

/-- The six shapes of the shortest encoding. -/
theorem utf8_encode_cases (c : Nat) (hc : c ≤ 0x7FFFFFFF) :
    (c < 0x80 ∧ utf8_len c = 1 ∧ utf8_encode c = [c % 128]) ∨
    (0x80 ≤ c ∧ c < 0x800 ∧ utf8_len c = 2 ∧
      utf8_encode c = [0xC0 + c / 64 % 32, 0x80 + c % 64]) ∨
    (0x800 ≤ c ∧ c < 0x10000 ∧ utf8_len c = 3 ∧
      utf8_encode c = [0xE0 + c / 4096 % 16, 0x80 + c / 64 % 64, 0x80 + c % 64]) ∨
    (0x10000 ≤ c ∧ c < 0x200000 ∧ utf8_len c = 4 ∧
      utf8_encode c = [0xF0 + c / 262144 % 8, 0x80 + c / 4096 % 64, 0x80 + c / 64 % 64,
        0x80 + c % 64]) ∨
    (0x200000 ≤ c ∧ c < 0x4000000 ∧ utf8_len c = 5 ∧
      utf8_encode c = [0xF8 + c / 16777216 % 4, 0x80 + c / 262144 % 64, 0x80 + c / 4096 % 64,
        0x80 + c / 64 % 64, 0x80 + c % 64]) ∨
    (0x4000000 ≤ c ∧ c < 0x80000000 ∧ utf8_len c = 6 ∧
      utf8_encode c = [0xFC + c / 1073741824 % 2, 0x80 + c / 16777216 % 64,
        0x80 + c / 262144 % 64, 0x80 + c / 4096 % 64, 0x80 + c / 64 % 64, 0x80 + c % 64]) := by
  unfold utf8_encode utf8_len
  split_ifs
  · exact Or.inl ⟨by omega, rfl, rfl⟩
  · exact Or.inr (Or.inl ⟨by omega, by omega, rfl, rfl⟩)
  · exact Or.inr (Or.inr (Or.inl ⟨by omega, by omega, rfl, rfl⟩))
  · exact Or.inr (Or.inr (Or.inr (Or.inl ⟨by omega, by omega, rfl, rfl⟩)))
  · exact Or.inr (Or.inr (Or.inr (Or.inr (Or.inl ⟨by omega, by omega, rfl, rfl⟩))))
  · exact Or.inr (Or.inr (Or.inr (Or.inr (Or.inr ⟨by omega, by omega, rfl, rfl⟩))))

theorem encode_length (c : Nat) : (utf8_encode c).length = utf8_len c := by
  unfold utf8_encode utf8_len
  split_ifs <;> rfl

theorem encode_lead (c : Nat) (hc : c ≤ 0x7FFFFFFF) :
    utf8_seq_len (byte_at (utf8_encode c) 0) = some (utf8_len c) := by
  rcases utf8_encode_cases c hc with ⟨h, hl, he⟩ | ⟨h, h', hl, he⟩ | ⟨h, h', hl, he⟩ |
    ⟨h, h', hl, he⟩ | ⟨h, h', hl, he⟩ | ⟨h, h', hl, he⟩ <;>
  · rw [hl, he]
    simp only [byte_at, List.getD_cons_zero, utf8_seq_len]
    split_ifs <;> first | rfl | omega

theorem encode_cont (c : Nat) (hc : c ≤ 0x7FFFFFFF) (i : Nat) (h1 : 1 ≤ i)
    (h2 : i < utf8_len c) : is_cont (byte_at (utf8_encode c) i) := by
  rcases utf8_encode_cases c hc with ⟨h, hl, he⟩ | ⟨h, h', hl, he⟩ | ⟨h, h', hl, he⟩ |
    ⟨h, h', hl, he⟩ | ⟨h, h', hl, he⟩ | ⟨h, h', hl, he⟩ <;>
  · rw [hl] at h2
    rw [he]
    interval_cases i <;>
      simp only [byte_at, List.getD_cons_zero, List.getD_cons_succ, is_cont] <;> omega

theorem div_chain (c : Nat) : c / 4096 = c / 64 / 64 ∧ c / 262144 = c / 64 / 64 / 64 ∧
    c / 16777216 = c / 64 / 64 / 64 / 64 ∧ c / 1073741824 = c / 64 / 64 / 64 / 64 / 64 := by
  omega

theorem encode_acc (sg : Bool) (c : Nat) (hc : c ≤ 0x7FFFFFFF) :
    utf8_acc sg (utf8_encode c) (utf8_len c - 1) % utf8_cap (utf8_len c) = c ∧
      utf8_min (utf8_len c) ≤ c := by
  rcases utf8_encode_cases c hc with ⟨h, hl, he⟩ | ⟨h, h', hl, he⟩ | ⟨h, h', hl, he⟩ |
    ⟨h, h', hl, he⟩ | ⟨h, h', hl, he⟩ | ⟨h, h', hl, he⟩ <;>
  · rw [hl, he]
    simp only [Nat.reduceSub, utf8_cap, utf8_min]
    refine ⟨?_, by omega⟩
    obtain ⟨g1, g2, g3, g4⟩ := div_chain c
    simp only [utf8_acc, byte_at, List.getD_cons_zero, List.getD_cons_succ, char_to_int,
      g1, g2, g3, g4]
    split_ifs <;> omega

theorem utf8_acc_congr (sg : Bool) (s s' : List Nat) (i : Nat)
    (h : ∀ j, j ≤ i → byte_at s j = byte_at s' j) : utf8_acc sg s i = utf8_acc sg s' i := by
  induction i with
  | zero => simp only [utf8_acc, h 0 le_rfl]
  | succ i ih =>
    simp only [utf8_acc, h (i + 1) le_rfl, ih (fun j hj => h j (by omega))]

theorem byte_at_cons_append (b0 : Nat) (conts rest : List Nat) (m : Nat)
    (hm : m < conts.length) : byte_at (b0 :: (conts ++ rest)) (m + 1) = conts[m] := by
  unfold byte_at
  rw [List.getD_cons_succ, List.getD_eq_getElem?_getD, List.getElem?_append_left hm,
    List.getElem?_eq_getElem hm]
  rfl

/-- The masked accumulator of the loop is the value the sequence carries. -/
theorem acc_value (sg : Bool) (k b0 : Nat) (conts rest : List Nat) (h1 : 1 ≤ k) (h6 : k ≤ 6)
    (hlen : conts.length + 1 = k) :
    utf8_acc sg (b0 :: (conts ++ rest)) (k - 1) % utf8_cap k = utf8_value k b0 conts := by
  subst hlen
  rcases conts with _ | ⟨b1, _ | ⟨b2, _ | ⟨b3, _ | ⟨b4, _ | ⟨b5, _ | ⟨b6, t⟩⟩⟩⟩⟩⟩
  case cons.cons.cons.cons.cons.cons => simp at h6
  all_goals
    simp only [List.length_cons, List.length_nil, Nat.reduceAdd, Nat.reduceSub, utf8_acc,
      byte_at, List.cons_append, List.nil_append, List.getD_cons_zero, List.getD_cons_succ,
      utf8_cap, utf8_value, utf8_lead_mod, List.foldl, char_to_int]
    split_ifs <;> omega

/-- Decoding the shortest encoding of `c`, whatever follows it, gives back `c` and the
length of the encoding. -/
theorem decode_encode (sg : Bool) (c : Nat) (rest : List Nat) (n : Int)
    (hc : c ≤ 0x7FFFFFFF) (hn : (utf8_len c : Int) ≤ n) :
    utf8_mbtowc sg (utf8_encode c ++ rest) n = ⟨(utf8_len c : Int), some c⟩ := by
  obtain ⟨h1, h6⟩ := utf8_len_range c
  have hlen := encode_length c
  have hbyte : ∀ i, i < utf8_len c →
      byte_at (utf8_encode c ++ rest) i = byte_at (utf8_encode c) i :=
    fun i hi => byte_at_append_left _ _ _ (by omega)
  obtain ⟨hv, hmin⟩ := encode_acc sg c hc
  rw [decode_at sg _ n (utf8_len c)
      (by rw [hbyte 0 (by omega)]; exact encode_lead c hc)
      (fun i h1 h2 => by rw [hbyte i h2]; exact encode_cont c hc i h1 h2) (Or.inl hn),
    utf8_acc_congr sg _ (utf8_encode c) _ (fun j hj => hbyte j (by omega)), hv,
    if_neg (by omega)]

/-- C1: for every code point `c ≤ 0x7FFFFFFF`, with `b = utf8_encode c` its shortest
classic UTF-8 encoding of `k = utf8_len c` bytes (`1 ≤ k ≤ 6`), every supplied length
`n ≥ k` and any bytes `rest` following `b`, `utf8_mbtowc` returns `k` and stores exactly
`c` through `p`, whatever the signedness of `char`. -/
theorem utf8_mbtowc_decodes_shortest_encoding (char_signed : Bool) (c : Nat) (rest : List Nat)
    (n : Int) (hc : c ≤ 0x7FFFFFFF) (hn : (utf8_len c : Int) ≤ n) :
    1 ≤ utf8_len c ∧ utf8_len c ≤ 6 ∧ (utf8_encode c).length = utf8_len c ∧
      utf8_mbtowc char_signed (utf8_encode c ++ rest) n = ⟨(utf8_len c : Int), some c⟩ :=
  ⟨(utf8_len_range c).1, (utf8_len_range c).2, encode_length c,
    decode_encode char_signed c rest n hc hn⟩

/-- Witness of C1: the three bytes of U+4E2D followed by one more byte. -/
theorem utf8_mbtowc_decodes_shortest_encoding_witness :
    utf8_mbtowc true (utf8_encode 0x4E2D ++ [0x41]) 4 = ⟨(utf8_len 0x4E2D : Int), some 0x4E2D⟩ :=
  (utf8_mbtowc_decodes_shortest_encoding true 0x4E2D [0x41] 4 (by decide) (by decide)).2.2.2

theorem seq_len_range (b k : Nat) (hk : utf8_seq_len b = some k) : 1 ≤ k ∧ k ≤ 6 := by
  unfold utf8_seq_len at hk
  split_ifs at hk <;> simp at hk <;> omega

/-- A positive result arises in one way only: some row matches the lead byte, the
continuation bytes before it are well formed and supplied, and the masked value is not
below the minimum of the row. -/
theorem decode_positive (sg : Bool) (s : List Nat) (n : Int) (hb : ∀ i, byte_at s i < 256) :
    ∀ d i, d + i = 6 →
      (∀ k, 1 ≤ k → k ≤ i → utf8_seq_len (byte_at s 0) ≠ some k) →
      (∀ k, 1 ≤ k → k ≤ i → is_cont (byte_at s k)) →
      ((i : Int) < n ∨ i = 0) →
      0 < (utf8_mbtowc sg s n).ret →
      ∃ k, utf8_seq_len (byte_at s 0) = some k ∧
        (∀ j, 1 ≤ j → j < k → is_cont (byte_at s j)) ∧ ((k : Int) ≤ n ∨ k = 1) ∧
        utf8_min k ≤ utf8_acc sg s (k - 1) % utf8_cap k ∧
        utf8_mbtowc sg s n = ⟨(k : Int), some (utf8_acc sg s (k - 1) % utf8_cap k)⟩ := by
  intro d
  induction d with
  | zero =>
    intro i hi hnm hcont hn hpos
    have hi6 : i = 6 := by omega
    subst hi6
    rw [loop_run sg s n 6 le_rfl (hb 0) hnm hcont hn] at hpos
    have hend : utf8_table_rows.drop 6 = [⟨0, 0, 0, 0, 0⟩] := rfl
    rw [hend, utf8_mbtowc_loop, if_pos rfl] at hpos
    simp at hpos
  | succ d ih =>
    intro i hi hnm hcont hn hpos
    by_cases hm : utf8_seq_len (byte_at s 0) = some (i + 1)
    · have hc : ∀ j, 1 ≤ j → j < i + 1 → is_cont (byte_at s j) :=
        fun j h1 h2 => hcont j h1 (by omega)
      have hn1 : ((i + 1 : Nat) : Int) ≤ n ∨ i + 1 = 1 := by omega
      have hdec := decode_at sg s n (i + 1) hm hc hn1
      by_cases hlt : utf8_acc sg s (i + 1 - 1) % utf8_cap (i + 1) < utf8_min (i + 1)
      · rw [hdec, if_pos hlt] at hpos
        simp at hpos
        omega
      · rw [if_neg hlt] at hdec
        exact ⟨i + 1, hm, hc, hn1, by omega, hdec⟩
    · have hlead : ∀ k, utf8_seq_len (byte_at s 0) = some k → i + 1 < k := by
        intro k hk
        obtain ⟨h1, -⟩ := seq_len_range _ _ hk
        by_contra hle
        by_cases he : k = i + 1
        · exact hm (he ▸ hk)
        · exact hnm k h1 (by omega) hk
      by_cases hn2 : n ≤ ((i + 1 : Nat) : Int)
      · rw [decode_short sg s n (i + 1) (by omega) (by omega) hn2 (by omega) (hb 0) hlead
          (fun j h1 h2 => hcont j h1 (by omega))] at hpos
        simp at hpos
      · by_cases hc : is_cont (byte_at s (i + 1))
        · refine ih (i + 1) (by omega) ?_ ?_ (by omega) hpos
          · intro k h1 h2
            by_cases he : k = i + 1
            · rw [he]; exact hm
            · exact hnm k h1 (by omega)
          · intro k h1 h2
            by_cases he : k = i + 1
            · rw [he]; exact hc
            · exact hcont k h1 (by omega)
        · rw [decode_bad sg s n (i + 1) (by omega) (by omega) (by omega) (hb 0) (hb _) hlead
            (fun j h1 h2 => hcont j h1 (by omega)) hc] at hpos
          simp at hpos
          omega

/-- The masked accumulator, read off the bytes of the string. -/
theorem acc_value_bytes (sg : Bool) (s : List Nat) (k : Nat) (h1 : 1 ≤ k) (h6 : k ≤ 6) :
    utf8_acc sg s (k - 1) % utf8_cap k =
      utf8_value k (byte_at s 0) ((List.range (k - 1)).map (fun i => byte_at s (i + 1))) := by
  have hlen : ((List.range (k - 1)).map (fun i => byte_at s (i + 1))).length + 1 = k := by
    rw [List.length_map, List.length_range]; omega
  rw [← acc_value sg k (byte_at s 0) _ [] h1 h6 hlen]
  congr 1
  apply utf8_acc_congr
  intro j hj
  cases j with
  | zero => rfl
  | succ m =>
    rw [byte_at_cons_append _ _ _ m (by rw [List.length_map, List.length_range]; omega),
      List.getElem_map, List.getElem_range]

/-- C2: `utf8_mbtowc` answers malformed input with a negative count, never a positive one.
(1) When the byte at position `j` (`1 ≤ j < n`, `j` before the end of the sequence that
the lead byte announces, at most 6 when it announces none) is the first whose top two
bits are not `10`, the result is `-j` and nothing is stored.
(2) When the lead byte announces `k` bytes (`2 ≤ k ≤ 6`, `n ≥ k`), the `k - 1`
continuation bytes are well formed, and the value they carry is below the minimum for
`k` bytes, the result is `-k` and nothing is stored.
(3) A positive result is returned only when the lead byte announces `k` bytes, the
`k - 1` bytes after it are continuation bytes and the value they carry is not below the
minimum for `k` bytes; the result is then `k` and that value is stored. -/
theorem utf8_mbtowc_rejects_malformed (char_signed : Bool) :
    (∀ (s : List Nat) (n : Int) (j : Nat), 1 ≤ j → j ≤ 6 → (j : Int) < n →
      byte_at s 0 < 256 → byte_at s j < 256 →
      (∀ k, utf8_seq_len (byte_at s 0) = some k → j < k) →
      (∀ i, 1 ≤ i → i < j → is_cont (byte_at s i)) →
      ¬ is_cont (byte_at s j) →
      utf8_mbtowc char_signed s n = ⟨-(j : Int), none⟩ ∧
        (utf8_mbtowc char_signed s n).ret < 0) ∧
    (∀ (b0 : Nat) (conts rest : List Nat) (n : Int) (k : Nat), 2 ≤ k →
      utf8_seq_len b0 = some k → conts.length + 1 = k → (∀ b ∈ conts, is_cont b) →
      (k : Int) ≤ n → utf8_value k b0 conts < utf8_min k →
      utf8_mbtowc char_signed (b0 :: (conts ++ rest)) n = ⟨-(k : Int), none⟩ ∧
        (utf8_mbtowc char_signed (b0 :: (conts ++ rest)) n).ret < 0) ∧
    (∀ (s : List Nat) (n : Int), (∀ i, byte_at s i < 256) →
      0 < (utf8_mbtowc char_signed s n).ret →
      ∃ k, utf8_seq_len (byte_at s 0) = some k ∧
        (∀ j, 1 ≤ j → j < k → is_cont (byte_at s j)) ∧
        utf8_min k ≤ utf8_value k (byte_at s 0)
          ((List.range (k - 1)).map (fun i => byte_at s (i + 1))) ∧
        utf8_mbtowc char_signed s n = ⟨(k : Int), some (utf8_value k (byte_at s 0)
          ((List.range (k - 1)).map (fun i => byte_at s (i + 1))))⟩) := by
  refine ⟨?_, ?_, ?_⟩
  · intro s n j hj1 hj6 hjn hb0 hbj hlead hgood hbad
    have h := decode_bad char_signed s n j hj1 hj6 hjn hb0 hbj hlead hgood hbad
    rw [h]
    exact ⟨rfl, by show -(j : Int) < 0; omega⟩
  · intro b0 conts rest n k hk2 hk hlen hc hn hv
    have hk6 : k ≤ 6 := by
      unfold utf8_seq_len at hk
      split_ifs at hk <;> simp at hk <;> omega
    have hci : ∀ i, 1 ≤ i → i < k → is_cont (byte_at (b0 :: (conts ++ rest)) i) := by
      intro i h1 h2
      obtain ⟨m, rfl⟩ : ∃ m, i = m + 1 := ⟨i - 1, by omega⟩
      rw [byte_at_cons_append b0 conts rest m (by omega)]
      exact hc _ (List.getElem_mem _)
    have hval := acc_value char_signed k b0 conts rest (by omega) hk6 hlen
    have h := decode_at char_signed (b0 :: (conts ++ rest)) n k
      (by simpa [byte_at] using hk) hci (Or.inl hn)
    rw [h, hval, if_pos hv]
    exact ⟨rfl, by show -(k : Int) < 0; omega⟩
  · intro s n hb hpos
    obtain ⟨k, hk, hc, -, hmin, hres⟩ := decode_positive char_signed s n hb 6 0 rfl
      (fun k h1 h2 => by omega) (fun k h1 h2 => by omega) (Or.inr rfl) hpos
    obtain ⟨h1, h6⟩ := seq_len_range _ _ hk
    rw [acc_value_bytes char_signed s k h1 h6] at hmin hres
    exact ⟨k, hk, hc, hmin, hres⟩

/-- Witness of C2: a three-byte lead whose second continuation byte is `A`, and the
overlong two-byte form of NUL. -/
theorem utf8_mbtowc_rejects_malformed_witness :
    (utf8_mbtowc true [0xE4, 0xB8, 0x41] 3).ret = -2 ∧
      (utf8_mbtowc true (0xC0 :: ([0x80] ++ [])) 2).ret = -2 :=
  ⟨by
    have h := ((utf8_mbtowc_rejects_malformed true).1 [0xE4, 0xB8, 0x41] 3 2 (by decide)
      (by decide) (by decide) (by decide) (by decide)
      (fun k h => by
        have e : utf8_seq_len (byte_at [0xE4, 0xB8, 0x41] 0) = some 3 := by decide
        rw [e] at h
        cases h
        decide)
      (fun i h1 h2 => by interval_cases i; decide) (by decide)).1
    rw [h]; rfl,
   by
    have h := ((utf8_mbtowc_rejects_malformed true).2.1 0xC0 [0x80] [] 2 2 (by decide)
      (by decide) (by decide) (by decide) (by decide) (by decide)).1
    rw [h]; rfl⟩

/-- Counterexample to C3 as stated: for the one-byte sequence `A` and the supplied
length `n = 0 < 1` the result is `1`, not `0`, whether the byte is in memory or the
buffer is empty; the same holds in front of a two-byte sequence when the byte at `s[0]`
happens to be ASCII. -/
theorem utf8_mbtowc_zero_length_counterexample :
    (0 : Nat) < utf8_len 0x41 ∧
      utf8_mbtowc false (utf8_encode 0x41) 0 = ⟨1, some 0x41⟩ ∧
      utf8_mbtowc true (utf8_encode 0x41) 0 = ⟨1, some 0x41⟩ ∧
      (utf8_mbtowc false ((utf8_encode 0x41).take 0) 0).ret = 1 ∧
      (utf8_mbtowc false (utf8_encode 0x41) 0).ret ≠ 0 := by
  decide

/-- C3, amended: let `b = utf8_encode c` be a valid sequence of `k = utf8_len c` bytes and
let the first `n < k` bytes of the buffer be the first `n` bytes of `b`.  The lead byte is
read before `n` is looked at, so: when `1 ≤ n`, or when `n = 0` and the byte at `s[0]`
is not ASCII, `utf8_mbtowc` returns `0` and stores nothing; when `n = 0` and the byte at
`s[0]` is ASCII, it returns `1` and stores that byte. -/
theorem utf8_mbtowc_truncated (char_signed : Bool) (c : Nat) (buf : List Nat) (n : Nat)
    (hc : c ≤ 0x7FFFFFFF) (hn : n < utf8_len c)
    (hsup : ∀ i, i < n → byte_at buf i = byte_at (utf8_encode c) i)
    (hb : byte_at buf 0 < 256) :
    ((1 ≤ n ∨ 0x80 ≤ byte_at buf 0) → utf8_mbtowc char_signed buf (n : Int) = ⟨0, none⟩) ∧
      (n = 0 → byte_at buf 0 < 0x80 →
        utf8_mbtowc char_signed buf (n : Int) = ⟨1, some (byte_at buf 0)⟩) := by
  obtain ⟨-, h6⟩ := utf8_len_range c
  constructor
  · intro h
    by_cases h1 : 1 ≤ n
    · have e0 := hsup 0 (by omega)
      refine decode_short char_signed buf n n h1 (by omega) le_rfl (Or.inl (by omega)) hb ?_ ?_
      · intro k hk
        rw [e0, encode_lead c hc] at hk
        cases hk
        exact hn
      · intro i hi1 hi2
        rw [hsup i hi2]
        exact encode_cont c hc i hi1 (by omega)
    · have hn0 : n = 0 := by omega
      subst hn0
      have hge : 0x80 ≤ byte_at buf 0 := by omega
      refine decode_short char_signed buf _ 1 le_rfl (by omega) (by simp) (Or.inr rfl) hb ?_ ?_
      · intro k hk
        unfold utf8_seq_len at hk
        split_ifs at hk <;> simp at hk <;> omega
      · intro i hi1 hi2
        omega
  · intro hn0 hlt
    subst hn0
    have hk : utf8_seq_len (byte_at buf 0) = some 1 := by
      unfold utf8_seq_len
      rw [if_pos hlt]
    rw [decode_at char_signed buf _ 1 hk (fun i h1 h2 => by omega) (Or.inr rfl)]
    have hv : utf8_acc char_signed buf (1 - 1) % utf8_cap 1 = byte_at buf 0 := by
      simp only [Nat.sub_self, utf8_acc, utf8_cap, char_to_int]
      split_ifs <;> simp_all <;> omega
    rw [hv, if_neg (by simp [utf8_min])]
    rfl

/-- Witness of C3, amended: the first two bytes of the three-byte sequence of U+4E2D. -/
theorem utf8_mbtowc_truncated_witness :
    utf8_mbtowc true [0xE4, 0xB8] ((2 : Nat) : Int) = ⟨0, none⟩ :=
  (utf8_mbtowc_truncated true 0x4E2D [0xE4, 0xB8] 2 (by decide) (by decide)
    (fun i hi => by interval_cases i <;> decide) (by decide)).1 (Or.inl (by decide))

/-- The scan returns the first index from `i` on that holds `u`, and `0` when the
remaining entries do not hold it. -/
theorem getCharID_loop_spec (gfont : GRFont) (u : Nat) (rem : Nat) :
    ∀ i, (∀ j, i ≤ j → j < i + rem → gfont.unicodemap j = u →
        (∀ m, i ≤ m → m < j → gfont.unicodemap m ≠ u) →
        getCharID_loop gfont u rem i = j) ∧
      ((∀ j, i ≤ j → j < i + rem → gfont.unicodemap j ≠ u) →
        getCharID_loop gfont u rem i = 0) := by
  induction rem with
  | zero =>
    intro i
    exact ⟨fun j h1 h2 => by omega, fun _ => rfl⟩
  | succ rem ih =>
    intro i
    constructor
    · intro j h1 h2 hj hmin
      rw [getCharID_loop]
      by_cases hi : u = gfont.unicodemap i
      · rw [if_pos hi]
        by_contra hne
        exact hmin i le_rfl (by omega) hi.symm
      · rw [if_neg hi]
        have hij : i ≠ j := fun e => hi (by rw [e]; exact hj.symm)
        exact (ih (i + 1)).1 j (by omega) (by omega) hj (fun m hm1 hm2 => hmin m (by omega) hm2)
    · intro hall
      rw [getCharID_loop, if_neg (fun e => hall i le_rfl (by omega) e.symm)]
      exact (ih (i + 1)).2 (fun j h1 h2 => hall j (by omega) (by omega))

/-- Once the decoder has stored `c`, `getCharID` is the scan for `c`. -/
theorem getCharID_of_decode (sg : Bool) (unicode0 : Nat) (gfont : GRFont) (s : List Nat)
    (c : Nat) (hdec : (utf8_mbtowc sg s (strlen s)).p = some c) :
    getCharID sg unicode0 gfont s = getCharID_loop gfont c gfont.count 0 := by
  unfold getCharID
  rw [hdec]
  rfl

/-- C4: for every glyph table `(count, unicodemap)` and every string `s` whose first code
point decodes to `c`, `getCharID` returns the smallest index `i < count` with
`unicodemap[i] = c` when there is one, and `0`, the fallback glyph, when no entry of the
table equals `c`. -/
theorem getCharID_first_match (char_signed : Bool) (unicode0 : Nat) (gfont : GRFont)
    (s : List Nat) (c : Nat) (hdec : (utf8_mbtowc char_signed s (strlen s)).p = some c) :
    (∀ i, i < gfont.count → gfont.unicodemap i = c → (∀ j, j < i → gfont.unicodemap j ≠ c) →
        getCharID char_signed unicode0 gfont s = i) ∧
      ((∀ i, i < gfont.count → gfont.unicodemap i ≠ c) →
        getCharID char_signed unicode0 gfont s = 0) := by
  rw [getCharID_of_decode char_signed unicode0 gfont s c hdec]
  obtain ⟨h1, h2⟩ := getCharID_loop_spec gfont c gfont.count 0
  exact ⟨fun i hi he hmin => h1 i (Nat.zero_le _) (by omega) he (fun m _ hm => hmin m hm),
    fun hall => h2 (fun j _ hj => hall j (by omega))⟩

/-- Witness of C4: the string `B` in a table that holds `A`, `B`, `B`. -/
theorem getCharID_first_match_witness :
    getCharID true 7 ⟨⟨0, 0, 0, 0, 0⟩, id, 3, fun i => [0x41, 0x42, 0x42].getD i 0,
      fun _ => 10, fun _ => 18, 18⟩ [0x42] = 1 :=
  (getCharID_first_match true 7 ⟨⟨0, 0, 0, 0, 0⟩, id, 3, fun i => [0x41, 0x42, 0x42].getD i 0,
      fun _ => 10, fun _ => 18, 18⟩ [0x42] 0x42 (by decide)).1 1 (by decide) (by decide)
    (fun j hj => by interval_cases j; decide)

theorem to_int_to_unsigned_of_range (z : Int) (h1 : -2147483648 ≤ z) (h2 : z < 2147483648) :
    to_int (to_unsigned z) = z := by
  unfold to_int to_unsigned
  split_ifs <;> omega

theorem int_add_unsigned_wrap (z : Int) (w : Nat) :
    int_add_unsigned (to_int (to_unsigned z)) w = to_int (to_unsigned (z + w)) := by
  unfold int_add_unsigned to_int to_unsigned
  split_ifs <;> omega

theorem strlen_append_nonzero (l rest : List Nat) (h : ∀ b ∈ l, b ≠ 0) :
    strlen (l ++ rest) = l.length + strlen rest := by
  induction l with
  | nil => simp
  | cons b l ih =>
    have hb : b ≠ 0 := h b (List.mem_cons_self _ _)
    rw [List.cons_append, strlen, if_neg hb, ih (fun c hc => h c (List.mem_cons_of_mem _ hc)),
      List.length_cons]
    omega

/-- The bytes of an encoding of a code point other than NUL are not NUL; the first one is
below `0x20` exactly for the control characters, which are encoded by themselves. -/
theorem encode_bytes (c : Nat) (h1 : 1 ≤ c) (hc : c ≤ 0x7FFFFFFF) :
    (∀ b ∈ utf8_encode c, b ≠ 0) ∧ (c < 0x20 → utf8_encode c = [c]) ∧
      (0x20 ≤ c → ∀ rest, 0x20 ≤ byte_at (utf8_encode c ++ rest) 0) := by
  rcases utf8_encode_cases c hc with ⟨h, hl, he⟩ | ⟨h, h', hl, he⟩ | ⟨h, h', hl, he⟩ |
    ⟨h, h', hl, he⟩ | ⟨h, h', hl, he⟩ | ⟨h, h', hl, he⟩ <;>
  · rw [he]
    refine ⟨?_, ?_, ?_⟩
    · intro b hb
      simp only [List.mem_cons, List.mem_singleton, List.not_mem_nil, or_false] at hb
      omega
    · intro h20
      first
        | (have e : c % 128 = c := by omega
           rw [e])
        | omega
    · intro h20 rest
      simp only [byte_at, List.cons_append, List.getD_cons_zero]
      omega

/-- The decoder on a string that starts with the encoding of `c`, called as `gr_text` and
`getCharID` call it, with `strlen` of the string as length. -/
theorem decode_head (sg : Bool) (c : Nat) (rest : List Nat) (h1 : 1 ≤ c)
    (hc : c ≤ 0x7FFFFFFF) :
    utf8_mbtowc sg (utf8_encode c ++ rest) (strlen (utf8_encode c ++ rest)) =
      ⟨(utf8_len c : Int), some c⟩ := by
  apply decode_encode sg c rest _ hc
  rw [strlen_append_nonzero _ _ (encode_bytes c h1 hc).1, encode_length]
  omega


theorem loop_step_end (sg : Bool) (u0 : Nat) (gfont : GRFont) (str : List Nat) (y : Int)
    (fuel pos : Nat) (x : Int) (h : byte_at (str.drop pos) 0 = 0) :
    gr_text_loop sg u0 gfont str y (fuel + 1) pos x = ⟨text_status.returned, x, []⟩ := by
  rw [gr_text_loop]
  simp only [h, if_true]

theorem loop_step_skip (sg : Bool) (u0 : Nat) (gfont : GRFont) (str : List Nat) (y : Int)
    (fuel pos : Nat) (x : Int) (h0 : byte_at (str.drop pos) 0 ≠ 0)
    (h : byte_at (str.drop pos) 0 < 0x20) :
    gr_text_loop sg u0 gfont str y (fuel + 1) pos x =
      gr_text_loop sg u0 gfont str y fuel (pos + 1) x := by
  rw [gr_text_loop]
  simp only [h0, h, if_true, if_false]

/-- One iteration of the loop of `gr_text` in front of the encoding of a code point
`c ≥ 0x20`: the glyph of `c` is drawn at `x` and the loop goes on behind the encoding. -/
theorem loop_step_draw (sg : Bool) (u0 : Nat) (gfont : GRFont) (str : List Nat) (y : Int)
    (fuel pos : Nat) (x : Int) (c : Nat) (rest : List Nat)
    (hdrop : str.drop pos = utf8_encode c ++ rest) (h20 : 0x20 ≤ c) (hc : c ≤ 0x7FFFFFFF) :
    gr_text_loop sg u0 gfont str y (fuel + 1) pos x =
      { gr_text_loop sg u0 gfont str y fuel (pos + utf8_len c)
          (int_add_unsigned x (gfont.cwidth (glyph_index gfont c))) with
        calls := glyph_draw gfont x y (glyph_index gfont c) ++
          (gr_text_loop sg u0 gfont str y fuel (pos + utf8_len c)
            (int_add_unsigned x (gfont.cwidth (glyph_index gfont c)))).calls } := by
  obtain ⟨-, -, hfirst⟩ := encode_bytes c (by omega) hc
  have hb := hfirst h20 rest
  have hdec := decode_head sg c rest (by omega) hc
  have hid : getCharID sg u0 gfont (utf8_encode c ++ rest) = glyph_index gfont c :=
    getCharID_of_decode sg u0 gfont _ c (by rw [hdec])
  obtain ⟨hl1, hl6⟩ := utf8_len_range c
  have hu : to_unsigned ((utf8_len c : Nat) : Int) = utf8_len c := by
    unfold to_unsigned; omega
  have hti : to_int (utf8_len c) = ((utf8_len c : Nat) : Int) := by
    unfold to_int; split_ifs <;> omega
  have hnat : ((pos : Int) + ((utf8_len c : Nat) : Int)).toNat = pos + utf8_len c := by omega
  rw [gr_text_loop]
  simp only [hdrop, hdec, hid, hu, hti, hnat, glyph_draw]
  rw [if_neg (by omega), if_neg (by omega), if_neg (by omega), if_neg (by omega)]


theorem utf8_string_cons (c : Nat) (cs : List Nat) :
    utf8_string (c :: cs) = utf8_encode c ++ utf8_string cs := by
  simp [utf8_string]

/-- The loop of `gr_text` over a run of well-formed code points, whatever follows the
run: the glyphs of the code points `≥ 0x20` are drawn in order, one iteration is spent
on each code point, and the loop stands behind the run with the cursor advanced. -/
theorem text_run (sg : Bool) (u0 : Nat) (gfont : GRFont) (y : Int) (tl : List Nat) :
    ∀ (cps pre : List Nat) (x : Int) (fuel : Nat),
      (∀ c ∈ cps, 1 ≤ c ∧ c ≤ 0x7FFFFFFF) →
      gr_text_loop sg u0 gfont (pre ++ (utf8_string cps ++ tl)) y (fuel + cps.length)
          pre.length x =
        { gr_text_loop sg u0 gfont (pre ++ (utf8_string cps ++ tl)) y fuel
            (pre.length + (utf8_string cps).length) (advance_x gfont x cps) with
          calls := glyph_calls gfont y x cps ++
            (gr_text_loop sg u0 gfont (pre ++ (utf8_string cps ++ tl)) y fuel
              (pre.length + (utf8_string cps).length) (advance_x gfont x cps)).calls } := by
  intro cps
  induction cps with
  | nil =>
    intro pre x fuel _
    simp [utf8_string, advance_x, glyph_calls]
  | cons c cs ih =>
    intro pre x fuel hall
    obtain ⟨h1, hc⟩ := hall c (List.mem_cons_self _ _)
    have hcs : ∀ d ∈ cs, 1 ≤ d ∧ d ≤ 0x7FFFFFFF := fun d hd => hall d (List.mem_cons_of_mem _ hd)
    have hstr : pre ++ (utf8_string (c :: cs) ++ tl) =
        (pre ++ utf8_encode c) ++ (utf8_string cs ++ tl) := by
      rw [utf8_string_cons]; simp only [List.append_assoc]
    have hdrop : (pre ++ (utf8_string (c :: cs) ++ tl)).drop pre.length =
        utf8_encode c ++ (utf8_string cs ++ tl) := by
      rw [utf8_string_cons, List.drop_left]; simp only [List.append_assoc]
    have hlen : (pre ++ utf8_encode c).length = pre.length + utf8_len c := by
      rw [List.length_append, encode_length]
    have hpos : pre.length + (utf8_string (c :: cs)).length =
        (pre ++ utf8_encode c).length + (utf8_string cs).length := by
      rw [utf8_string_cons, List.length_append, hlen, encode_length]; omega
    have hfuel : fuel + (c :: cs).length = (fuel + cs.length) + 1 := by
      rw [List.length_cons]; omega
    obtain ⟨hnz, hctl, hfirst⟩ := encode_bytes c h1 hc
    have hih := ih (pre ++ utf8_encode c) 
    rw [hfuel, hpos]
    by_cases h20 : c < 0x20
    · have he := hctl h20
      have hb : byte_at ((pre ++ (utf8_string (c :: cs) ++ tl)).drop pre.length) 0 = c := by
        rw [hdrop, he]; rfl
      rw [loop_step_skip sg u0 gfont _ y _ _ x (by rw [hb]; omega) (by rw [hb]; exact h20)]
      have hl1 : utf8_len c = 1 := by rw [← encode_length, he]; rfl
      rw [hstr, ← hl1, ← hlen, hih x fuel hcs]
      simp only [advance_x, glyph_calls, if_pos h20]
    · have h20' : 0x20 ≤ c := by omega
      rw [loop_step_draw sg u0 gfont _ y _ _ x c _ hdrop h20' hc]
      rw [hstr, ← hlen, hih _ fuel hcs]
      simp only [advance_x, glyph_calls, if_neg h20, List.append_assoc]


theorem advance_x_wrap (gfont : GRFont) (cps : List Nat) :
    ∀ z : Int, advance_x gfont (to_int (to_unsigned z)) cps =
      to_int (to_unsigned (z + (text_advance gfont cps : Nat))) := by
  induction cps with
  | nil => intro z; simp [advance_x, text_advance]
  | cons c cs ih =>
    intro z
    by_cases h : c < 0x20
    · simp only [advance_x, text_advance, if_pos h]
      exact ih z
    · simp only [advance_x, text_advance, if_neg h]
      rw [int_add_unsigned_wrap, ih]
      congr 2
      push_cast
      omega

/-- What `gr_text` does with a well-formed string: it returns, the cursor is the start
plus the overscan offset plus the advance of the glyphs, and exactly the glyphs of the
code points `≥ 0x20` are drawn. -/
theorem gr_text_well_formed (sg : Bool) (u0 : Nat) (g : Globals) (fuel : Nat) (x y : Int)
    (cps : List Nat) (bold : Int) (hcps : ∀ c ∈ cps, 1 ≤ c ∧ c ≤ 0x7FFFFFFF)
    (hfuel : cps.length < fuel)
    (hx : -2147483648 ≤ x + g.overscan_offset_x ∧ x + g.overscan_offset_x < 2147483648) :
    gr_text sg u0 g fuel x y (utf8_string cps) bold =
      ⟨text_status.returned,
        to_int (to_unsigned (x + g.overscan_offset_x + (text_advance g.gr_font cps : Nat))),
        text_setup ++ glyph_calls g.gr_font
          (int_sub_unsigned (y + g.overscan_offset_y) g.gr_font.ascent)
          (x + g.overscan_offset_x) cps⟩ := by
  obtain ⟨f, rfl⟩ : ∃ f, fuel = (f + 1) + cps.length := ⟨fuel - cps.length - 1, by omega⟩
  have hrun := text_run sg u0 g.gr_font
    (int_sub_unsigned (y + g.overscan_offset_y) g.gr_font.ascent) [] cps []
    (x + g.overscan_offset_x) (f + 1) hcps
  simp only [List.nil_append, List.append_nil, List.length_nil, Nat.zero_add] at hrun
  have hend : byte_at ((utf8_string cps).drop (utf8_string cps).length) 0 = 0 := by
    rw [List.drop_length]; rfl
  rw [loop_step_end sg u0 g.gr_font _ _ f _ _ hend] at hrun
  unfold gr_text
  simp only [hrun, List.append_nil, text_setup]
  rw [← to_int_to_unsigned_of_range _ hx.1 hx.2, advance_x_wrap,
    to_int_to_unsigned_of_range _ hx.1 hx.2]

/-- Counterexample to C6 as stated: with 1% overscan on a 500 pixel wide device the
offset is 5, and drawing `A` (10 pixels wide) at `(10, 10)` returns `25`, not
`10 + cwidth('A') = 20`. -/
theorem gr_text_return_counterexample :
    sample_globals_overscan.overscan_offset_x = 5 ∧
      (gr_text false 0 sample_globals_overscan 2 10 10 [0x41] 0).status =
        text_status.returned ∧
      (gr_text false 0 sample_globals_overscan 2 10 10 [0x41] 0).x = 25 ∧
      (gr_text false 0 sample_globals_overscan 2 10 10 [0x41] 0).x ≠
        10 + ((sample_globals_overscan.gr_font.cwidth
          (getCharID false 0 sample_globals_overscan.gr_font [0x41]) : Nat) : Int) := by
  decide

/-- C6, amended: for every start `(x, y)` (with `x + overscan_offset_x` an `int`), every
overscan inset, either value of `bold` and every well-formed UTF-8 string `s`, `gr_text`
returns, and the value is `x + overscan_offset_x` plus the sum of `cwidth[getCharID(cp)]`
over the code points `cp ≥ 0x20` of `s`, as a 32-bit `int`: exactly that sum when it is
below `2 ^ 31`.  Code points below `0x20` add no width. -/
theorem gr_text_returns_cursor (char_signed : Bool) (unicode0 : Nat) (g : Globals)
    (fuel : Nat) (x y : Int) (cps : List Nat) (bold : Int)
    (hcps : ∀ c ∈ cps, 1 ≤ c ∧ c ≤ 0x7FFFFFFF) (hfuel : cps.length < fuel)
    (hx : -2147483648 ≤ x + g.overscan_offset_x ∧ x + g.overscan_offset_x < 2147483648) :
    (gr_text char_signed unicode0 g fuel x y (utf8_string cps) bold).status =
        text_status.returned ∧
      (gr_text char_signed unicode0 g fuel x y (utf8_string cps) bold).x =
        to_int (to_unsigned
          (x + g.overscan_offset_x + (text_advance g.gr_font cps : Nat))) ∧
      (x + g.overscan_offset_x + (text_advance g.gr_font cps : Nat) < 2147483648 →
        (gr_text char_signed unicode0 g fuel x y (utf8_string cps) bold).x =
          x + g.overscan_offset_x + (text_advance g.gr_font cps : Nat)) := by
  rw [gr_text_well_formed char_signed unicode0 g fuel x y cps bold hcps hfuel hx]
  refine ⟨rfl, rfl, fun h => ?_⟩
  exact to_int_to_unsigned_of_range _ (by omega) h

/-- Witness of C6, amended: without overscan `A` at `(10, 10)` returns
`10 + cwidth('A')`. -/
theorem gr_text_returns_cursor_witness :
    (gr_text true 0 sample_globals 2 10 10 (utf8_string [0x41]) 1).x =
      10 + sample_globals.overscan_offset_x +
        ((text_advance sample_globals.gr_font [0x41] : Nat) : Int) ∧
      sample_globals.overscan_offset_x = 0 ∧
      text_advance sample_globals.gr_font [0x41] =
        sample_globals.gr_font.cwidth (getCharID true 0 sample_globals.gr_font [0x41]) :=
  ⟨(gr_text_returns_cursor true 0 sample_globals 2 10 10 [0x41] 1
      (fun c hc => by
        rw [List.mem_singleton] at hc
        subst hc
        decide)
      (by decide) (by decide)).2.2 (by decide),
    by decide, by decide⟩

/-- One iteration of the loop of `gr_text` in front of a byte `≥ 0x20` on which
`utf8_mbtowc` returns the negative count `-j`: the test `n <= 0` on the `unsigned n`
does not fire, a glyph is drawn for whatever `getCharID` finds, the cursor advances and
the pointer moves back by `j` bytes. -/
theorem loop_step_negative (sg : Bool) (u0 : Nat) (gfont : GRFont) (str : List Nat) (y : Int)
    (fuel pos : Nat) (x : Int) (j : Nat) (hj1 : 1 ≤ j) (hj6 : j ≤ 6) (hpos : j ≤ pos)
    (h20 : 0x20 ≤ byte_at (str.drop pos) 0)
    (hret : (utf8_mbtowc sg (str.drop pos) (strlen (str.drop pos))).ret = -(j : Int)) :
    gr_text_loop sg u0 gfont str y (fuel + 1) pos x =
      { gr_text_loop sg u0 gfont str y fuel (pos - j)
          (int_add_unsigned x (gfont.cwidth (getCharID sg u0 gfont (str.drop pos)))) with
        calls := glyph_draw gfont x y (getCharID sg u0 gfont (str.drop pos)) ++
          (gr_text_loop sg u0 gfont str y fuel (pos - j)
            (int_add_unsigned x
              (gfont.cwidth (getCharID sg u0 gfont (str.drop pos))))).calls } := by
  have hu : to_unsigned (-(j : Int)) = 4294967296 - j := by
    unfold to_unsigned; omega
  have hti : to_int (4294967296 - j) = -(j : Int) := by
    unfold to_int; split_ifs <;> omega
  have hnat : ((pos : Int) + -(j : Int)).toNat = pos - j := by omega
  rw [gr_text_loop]
  simp only [hret, hu, hti, hnat, glyph_draw]
  rw [if_neg (by omega), if_neg (by omega), if_neg (by omega), if_neg (by omega)]

/-- On the string `A \xC3 B` the loop of `gr_text` never returns: from offset 0 it draws
`A` and reaches offset 1, from offset 1 the decoder answers `-1` and the pointer goes
back to offset 0. -/
theorem loop_cycle (sg : Bool) (u0 : Nat) (gfont : GRFont) (y : Int) (fuel : Nat) :
    ∀ x, (gr_text_loop sg u0 gfont [0x41, 0xC3, 0x42] y fuel 0 x).status =
          text_status.out_of_fuel ∧
        (gr_text_loop sg u0 gfont [0x41, 0xC3, 0x42] y fuel 1 x).status =
          text_status.out_of_fuel := by
  induction fuel with
  | zero => intro x; exact ⟨rfl, rfl⟩
  | succ fuel ih =>
    intro x
    constructor
    · rw [loop_step_draw sg u0 gfont [0x41, 0xC3, 0x42] y fuel 0 x 0x41 [0xC3, 0x42] rfl
        (by decide) (by decide)]
      exact (ih _).2
    · rw [loop_step_negative sg u0 gfont [0x41, 0xC3, 0x42] y fuel 1 x 1 le_rfl (by decide)
        le_rfl (by decide) (by cases sg <;> decide)]
      exact (ih _).1

/-- C5, the code at the failing input `A \xC3 B` (`p = "A"`, `m = "\xC3B"`, on which
`utf8_mbtowc` returns `-1`): whatever the font, the start and the bound on the
iterations, `gr_text` has not returned, and after three iterations it has drawn three
glyphs, two of them after the decode failure, where the claim allows the glyph of `A`
only. -/
theorem gr_text_negative_count_not_stopped (char_signed : Bool) (unicode0 : Nat) (g : Globals)
    (x y : Int) (bold : Int) :
    (utf8_mbtowc char_signed [0xC3, 0x42] (strlen [0xC3, 0x42])).ret = -1 ∧
      (∀ fuel, (gr_text char_signed unicode0 g fuel x y [0x41, 0xC3, 0x42] bold).status =
        text_status.out_of_fuel) ∧
      (gr_text char_signed unicode0 g 3 x y [0x41, 0xC3, 0x42] bold).calls.length =
        4 + 3 * 3 := by
  refine ⟨by cases char_signed <;> decide, fun fuel => ?_, ?_⟩
  · unfold gr_text
    exact (loop_cycle char_signed unicode0 g.gr_font _ fuel _).1
  · have h3 : ∀ y0 x0, (gr_text_loop char_signed unicode0 g.gr_font [0x41, 0xC3, 0x42] y0
        (0 + 1 + 1 + 1) 0 x0).calls.length = 9 := by
      intro y0 x0
      rw [loop_step_draw char_signed unicode0 g.gr_font [0x41, 0xC3, 0x42] _ _ 0 _ 0x41
          [0xC3, 0x42] rfl (by decide) (by decide),
        show 0 + utf8_len 0x41 = 1 from rfl,
        loop_step_negative char_signed unicode0 g.gr_font [0x41, 0xC3, 0x42] _ _ 1 _ 1 le_rfl
          (by decide) le_rfl (by decide) (by cases char_signed <;> decide),
        show 1 - 1 = 0 from rfl,
        loop_step_draw char_signed unicode0 g.gr_font [0x41, 0xC3, 0x42] _ 0 0 _ 0x41
          [0xC3, 0x42] rfl (by decide) (by decide)]
      simp [glyph_draw, gr_text_loop]
    unfold gr_text
    simp only [List.length_append, List.length_cons, List.length_nil]
    exact congrArg (fun n => 0 + 1 + 1 + 1 + 1 + n) (h3 _ _)

/-- Counterexample to C7 as stated: for the well-formed string `AB`, with both glyphs 10
pixels wide, `gr_measure` is `10` while the sum over the code points, the advance that
`gr_text` makes, is `20`. -/
theorem gr_measure_sum_counterexample :
    gr_measure false 0 sample_globals (utf8_string [0x41, 0x42]) = 10 ∧
      text_advance sample_globals.gr_font [0x41, 0x42] = 20 ∧
      (gr_text false 0 sample_globals 3 0 0 (utf8_string [0x41, 0x42]) 0).x = 20 ∧
      gr_measure false 0 sample_globals (utf8_string [0x41, 0x42]) ≠
        ((text_advance sample_globals.gr_font [0x41, 0x42] : Nat) : Int) := by
  decide

/-- C7, amended: `gr_measure` measures the first glyph only.  For a string that begins
with the encoding of a code point `c` (other than NUL) it is `cwidth[getCharID(c)]`
whatever follows; for a string of the single code point `c ≥ 0x20` that is the sum over
its code points, the advance `gr_text` makes; and for a string on whose first sequence
`utf8_mbtowc` fails (a result `≤ 0`) it is `0`. -/
theorem gr_measure_first_glyph (char_signed : Bool) (unicode0 : Nat) (g : Globals) (c : Nat)
    (rest : List Nat) (h1 : 1 ≤ c) (hc : c ≤ 0x7FFFFFFF) :
    gr_measure char_signed unicode0 g (utf8_encode c ++ rest) =
        ((g.gr_font.cwidth (glyph_index g.gr_font c) : Nat) : Int) ∧
      (0x20 ≤ c → gr_measure char_signed unicode0 g (utf8_string [c]) =
        ((text_advance g.gr_font [c] : Nat) : Int)) ∧
      (∀ s, (utf8_mbtowc char_signed s (strlen s)).ret ≤ 0 →
        gr_measure char_signed unicode0 g s = 0) := by
  have hmain : ∀ tl, gr_measure char_signed unicode0 g (utf8_encode c ++ tl) =
      ((g.gr_font.cwidth (glyph_index g.gr_font c) : Nat) : Int) := by
    intro tl
    have hdec := decode_head char_signed c tl h1 hc
    have hid : getCharID char_signed unicode0 g.gr_font (utf8_encode c ++ tl) =
        glyph_index g.gr_font c :=
      getCharID_of_decode char_signed unicode0 g.gr_font _ c (by rw [hdec])
    obtain ⟨hl1, -⟩ := utf8_len_range c
    unfold gr_measure
    simp only [hdec, hid]
    rw [if_neg (by omega)]
  refine ⟨hmain rest, fun h20 => ?_, fun s hs => ?_⟩
  · have e : utf8_string [c] = utf8_encode c ++ [] := by simp [utf8_string]
    rw [e, hmain []]
    simp [text_advance, Nat.not_lt.mpr h20]
  · unfold gr_measure
    simp only [hs, if_true]

/-- Witness of C7, amended: `AB` measures as `A`. -/
theorem gr_measure_first_glyph_witness :
    gr_measure true 0 sample_globals (utf8_encode 0x41 ++ [0x42]) =
      ((sample_globals.gr_font.cwidth (glyph_index sample_globals.gr_font 0x41) : Nat) : Int) :=
  (gr_measure_first_glyph true 0 sample_globals 0x41 [0x42] (by decide) (by decide)).1

theorem shl8_or (c : Nat) (h : c < 256) : (c <<< 8) ||| c = 257 * c := by
  rw [Nat.shiftLeft_eq, Nat.mul_comm, ← Nat.mul_add_lt_is_or (i := 8) h c]
  omega

/-- C10: every 8-bit component `c` of `gr_color` reaches the rasterizer as
`((c << 8) | c) + 1 = 257 * c + 1`; that is `1` for `c = 0`, `65536` for `c = 255`, lies
in `[1, 65536]`, and does not decrease when `c` grows. -/
theorem gr_color_fixed_point (r g b a : Nat) (hr : r < 256) (hg : g < 256) (hb : b < 256)
    (ha : a < 256) :
    gr_color r g b a =
        [GGLCall.color4xv (257 * r + 1) (257 * g + 1) (257 * b + 1) (257 * a + 1)] ∧
      color_component 0 = 1 ∧ color_component 255 = 65536 ∧
      (∀ c, c < 256 → color_component c = ((((c <<< 8) ||| c) + 1 : Nat) : Int) ∧
        color_component c = 257 * c + 1 ∧
        1 ≤ color_component c ∧ color_component c ≤ 65536) ∧
      (∀ c d, c ≤ d → d < 256 → color_component c ≤ color_component d) := by
  have hcc : ∀ c, c < 256 → color_component c = 257 * c + 1 := by
    intro c h
    unfold color_component
    rw [shl8_or c h]
    push_cast
    rfl
  refine ⟨?_, by decide, by decide, fun c h => ⟨rfl, hcc c h, ?_, ?_⟩, fun c d hcd hd => ?_⟩
  · unfold gr_color
    rw [hcc r hr, hcc g hg, hcc b hb, hcc a ha]
  · rw [hcc c h]; omega
  · rw [hcc c h]; omega
  · rw [hcc c (by omega), hcc d hd]; omega

/-- Witness of C10: opaque white. -/
theorem gr_color_fixed_point_witness :
    gr_color 255 255 255 255 =
      [GGLCall.color4xv (257 * (255 : Nat) + 1) (257 * (255 : Nat) + 1) (257 * (255 : Nat) + 1)
        (257 * (255 : Nat) + 1)] :=
  (gr_color_fixed_point 255 255 255 255 (by decide) (by decide) (by decide) (by decide)).1

/-- What `gr_init` leaves in the globals on the direct path. -/
theorem gr_init_fields (PIXEL_SIZE : Nat) (font : GRFont) (percent : Int)
    (xres yres line_length smem_len : Nat) :
    let g := gr_init PIXEL_SIZE font ⟨xres, yres, line_length, smem_len, false⟩
      (initial_globals font percent)
    g.has_overlay = false ∧ g.gr_active_fb = 0 ∧ g.vi_yres = yres ∧
      g.fi_line_length = line_length ∧ g.gr_context = true ∧ g.gr_font = font ∧
      g.fb0_width = xres ∧ g.fb0_height = yres ∧
      g.overscan_offset_x = to_int ((xres * to_unsigned percent) % 4294967296 / 100) ∧
      g.overscan_offset_y = to_int ((yres * to_unsigned percent) % 4294967296 / 100) ∧
      g.double_buffering =
        (if (yres * line_length * 2) % 4294967296 > smem_len then 0 else 1) := by
  simp only [gr_init, get_framebuffer, set_active_framebuffer, initial_globals]
  split_ifs <;> simp_all

/-- One `gr_flip` on the direct path: the fields that stay, the new index and the
requests made. -/
theorem gr_flip_direct (g : Globals) (r : Int) (ho : g.has_overlay = false) :
    (gr_flip g r).1.has_overlay = false ∧
      (gr_flip g r).1.double_buffering = g.double_buffering ∧
      (gr_flip g r).1.vi_yres = g.vi_yres ∧
      (gr_flip g r).1.fi_line_length = g.fi_line_length ∧
      (g.double_buffering = 0 → (gr_flip g r).1.gr_active_fb = g.gr_active_fb ∧
        (gr_flip g r).2 = [fb_event.memcpy_to_framebuffer g.gr_active_fb
          ((g.fi_line_length * g.vi_yres) % 4294967296)]) ∧
      (g.double_buffering ≠ 0 → (gr_flip g r).1.gr_active_fb = (g.gr_active_fb + 1) % 2 ∧
        (gr_flip g r).2 = [fb_event.memcpy_to_framebuffer ((g.gr_active_fb + 1) % 2)
            ((g.fi_line_length * g.vi_yres) % 4294967296),
          fb_event.put_vscreeninfo ((g.vi_yres * 2) % 4294967296)
            (((g.gr_active_fb + 1) % 2 * g.vi_yres) % 4294967296)]) := by
  have hm : (g.gr_active_fb + 1) &&& 1 = (g.gr_active_fb + 1) % 2 := Nat.and_one_is_mod _
  have hle : ¬ ((g.gr_active_fb + 1) % 2 > 1) := by omega
  by_cases hd : g.double_buffering = 0
  · simp [gr_flip, set_active_framebuffer, ho, hd]
  · simp [gr_flip, set_active_framebuffer, ho, hd, hm, hle]

/-- The globals after `k` flips on the direct path. -/
theorem flips_direct (g : Globals) (ho : g.has_overlay = false) (ha : g.gr_active_fb = 0)
    (k : Nat) :
    (flips g k).has_overlay = false ∧ (flips g k).double_buffering = g.double_buffering ∧
      (flips g k).vi_yres = g.vi_yres ∧ (flips g k).fi_line_length = g.fi_line_length ∧
      (flips g k).gr_active_fb = (if g.double_buffering = 0 then 0 else k % 2) := by
  induction k with
  | zero => simp [flips, ho, ha]
  | succ k ih =>
    obtain ⟨i1, i2, i3, i4, i5⟩ := ih
    obtain ⟨f1, f2, f3, f4, f5, f6⟩ := gr_flip_direct (flips g k) 0 i1
    refine ⟨f1, by rw [flips, f2, i2], by rw [flips, f3, i3], by rw [flips, f4, i4], ?_⟩
    rw [flips]
    by_cases hd : g.double_buffering = 0
    · rw [(f5 (by rw [i2]; exact hd)).1, i5, if_pos hd, if_pos hd]
    · rw [(f6 (by rw [i2]; exact hd)).1, i5, if_neg hd, if_neg hd]
      omega

/-- C8: buffer rotation on the direct path, started by `gr_init`.  When
`yres * line_length * 2 > smem_len` (as the `unsigned` expression of the code evaluates
it) double buffering is off, the active index is `0` after any number of flips and every
flip copies into buffer `0` and activates nothing else.  Otherwise double buffering is on,
the index after the `k`-th flip is `k mod 2` (so `0, 1, 0, 1, ...` from the initial `0`),
always `0` or `1`, and each flip copies into the buffer that it then activates. -/
theorem flip_buffer_rotation (PIXEL_SIZE : Nat) (font : GRFont) (percent : Int)
    (xres yres line_length smem_len : Nat) (k : Nat) (r : Int) :
    let g := gr_init PIXEL_SIZE font ⟨xres, yres, line_length, smem_len, false⟩
      (initial_globals font percent)
    (flips g 0).gr_active_fb = 0 ∧
    ((yres * line_length * 2) % 4294967296 > smem_len →
      g.double_buffering = 0 ∧ (flips g k).gr_active_fb = 0 ∧
        (gr_flip (flips g k) r).2 =
          [fb_event.memcpy_to_framebuffer 0 ((line_length * yres) % 4294967296)]) ∧
    (¬ (yres * line_length * 2) % 4294967296 > smem_len →
      g.double_buffering = 1 ∧ (flips g k).gr_active_fb = k % 2 ∧
        (flips g k).gr_active_fb ≤ 1 ∧
        (gr_flip (flips g k) r).1.gr_active_fb = (k + 1) % 2 ∧
        (gr_flip (flips g k) r).2 =
          [fb_event.memcpy_to_framebuffer ((k + 1) % 2) ((line_length * yres) % 4294967296),
            fb_event.put_vscreeninfo ((yres * 2) % 4294967296)
              (((k + 1) % 2 * yres) % 4294967296)]) := by
  intro g
  obtain ⟨ho, ha, hy, hl, -, -, -, -, -, -, hdb⟩ :=
    gr_init_fields PIXEL_SIZE font percent xres yres line_length smem_len
  obtain ⟨i1, i2, i3, i4, i5⟩ := flips_direct g ho ha k
  obtain ⟨-, -, -, -, f5, f6⟩ := gr_flip_direct (flips g k) r i1
  refine ⟨ha, fun h => ?_, fun h => ?_⟩
  · have hd : g.double_buffering = 0 := by rw [hdb, if_pos h]
    have hk : (flips g k).gr_active_fb = 0 := by rw [i5, if_pos hd]
    refine ⟨hd, hk, ?_⟩
    rw [(f5 (by rw [i2]; exact hd)).2, hk, i3, i4, hy, hl]
  · have hd : g.double_buffering = 1 := by rw [hdb, if_neg h]
    have hk : (flips g k).gr_active_fb = k % 2 := by rw [i5, if_neg (by omega)]
    have hf := f6 (by rw [i2, hd]; decide)
    refine ⟨hd, hk, by omega, ?_, ?_⟩
    · rw [hf.1, hk]; omega
    · rw [hf.2, hk, i3, i4, hy, hl]
      have e : (k % 2 + 1) % 2 = (k + 1) % 2 := by omega
      rw [e]

/-- Witness of C8: on the sample device, whose memory holds one frame, double buffering
is off and the third flip copies into buffer `0`. -/
theorem flip_buffer_rotation_witness :
    sample_globals.double_buffering = 0 ∧ (flips sample_globals 2).gr_active_fb = 0 ∧
      (gr_flip (flips sample_globals 2) 0).2 =
        [fb_event.memcpy_to_framebuffer 0 ((1080 * 960) % 4294967296)] :=
  (flip_buffer_rotation 2 sample_font 0 540 960 1080 1036800 2 0).2.1 (by decide)

/-- The overscan offsets, the size of buffer 0, the context and the font after `gr_init`,
on either path. -/
theorem gr_init_overscan (PIXEL_SIZE : Nat) (font : GRFont) (percent : Int) (dev : fb_device) :
    let g := gr_init PIXEL_SIZE font dev (initial_globals font percent)
    g.gr_context = true ∧ g.gr_font = font ∧ g.fb0_width = dev.xres ∧
      g.fb0_height = dev.yres ∧
      g.overscan_offset_x = to_int ((dev.xres * to_unsigned percent) % 4294967296 / 100) ∧
      g.overscan_offset_y = to_int ((dev.yres * to_unsigned percent) % 4294967296 / 100) := by
  simp only [gr_init, get_framebuffer, set_active_framebuffer, initial_globals]
  split_ifs <;> simp_all

/-- The inset that `get_framebuffer` computes in `unsigned` arithmetic is
`res * percent / 100` for a percentage and a resolution whose product fits. -/
theorem overscan_inset (res : Nat) (percent : Int) (hp0 : 0 ≤ percent) (hp : percent ≤ 100)
    (hres : res ≤ 42949672) :
    to_int ((res * to_unsigned percent) % 4294967296 / 100) = (res : Int) * percent / 100 ∧
      0 ≤ (res : Int) * percent / 100 ∧ (res : Int) * percent / 100 ≤ res := by
  obtain ⟨p, rfl⟩ := Int.eq_ofNat_of_zero_le hp0
  have hp' : p ≤ 100 := by omega
  have hu : to_unsigned (p : Int) = p := by unfold to_unsigned; omega
  have hq : res * p ≤ res * 100 := Nat.mul_le_mul_left _ hp'
  rw [hu, ← Nat.cast_mul]
  generalize res * p = q at hq ⊢
  unfold to_int
  split_ifs <;> omega


/-- C9: overscan is a constant offset.  After `gr_init` with a percentage
`0 ≤ overscan_percent ≤ 100` the insets are `ox = xres * overscan_percent / 100` and
`oy = yres * overscan_percent / 100`; `gr_fill(x1, y1, x2, y2)` issues
`recti(x1+ox, y1+oy, x2+ox, y2+oy)`; `gr_blit` of a surface to `(dx, dy)` with size
`(w, h)` issues `recti(dx+ox, dy+oy, dx+ox+w, dy+oy+h)`; `gr_texticon` at `(x, y)` issues a
rectangle with top-left `(x+ox, y+oy)`; `gr_text` starts its first glyph at `x+ox` with
its top at `y+oy` minus the font ascent; and the usable size is
`gr_fb_width() = xres - 2*ox`, `gr_fb_height() = yres - 2*oy`. -/
theorem overscan_constant_offset (PIXEL_SIZE : Nat) (font : GRFont) (percent : Int)
    (dev : fb_device) (hp0 : 0 ≤ percent) (hp : percent ≤ 100) (hxres : dev.xres ≤ 42949672)
    (hyres : dev.yres ≤ 42949672) :
    let g := gr_init PIXEL_SIZE font dev (initial_globals font percent)
    let ox : Int := (dev.xres : Int) * percent / 100
    let oy : Int := (dev.yres : Int) * percent / 100
    g.overscan_offset_x = ox ∧ g.overscan_offset_y = oy ∧
    (∀ x1 y1 x2 y2 : Int, gr_fill g x1 y1 x2 y2 =
      [GGLCall.disable_texture_2d, GGLCall.recti (x1 + ox) (y1 + oy) (x2 + ox) (y2 + oy)]) ∧
    (∀ (src : GGLSurface) (sx sy w h dx dy : Int), gr_blit g (some src) sx sy w h dx dy =
      [GGLCall.bindTexture src, GGLCall.texEnvi_replace, GGLCall.texGeni_S_one_to_one,
        GGLCall.texGeni_T_one_to_one, GGLCall.enable_texture_2d,
        GGLCall.texCoord2i (sx - (dx + ox)) (sy - (dy + oy)),
        GGLCall.recti (dx + ox) (dy + oy) (dx + ox + w) (dy + oy + h)]) ∧
    (∀ (icon : GGLSurface) (x y : Int), gr_texticon g x y (some icon) =
      [GGLCall.bindTexture icon, GGLCall.texEnvi_replace, GGLCall.texGeni_S_one_to_one,
        GGLCall.texGeni_T_one_to_one, GGLCall.enable_texture_2d,
        GGLCall.texCoord2i (-(x + ox)) (-(y + oy)),
        GGLCall.recti (x + ox) (y + oy) (int_add_unsigned (x + ox) icon.width)
          (int_add_unsigned (y + oy) icon.height)]) ∧
    (∀ (char_signed : Bool) (unicode0 fuel : Nat) (x y : Int) (c : Nat) (rest : List Nat)
        (bold : Int), 0x20 ≤ c → c ≤ 0x7FFFFFFF →
      -2147483648 ≤ y + oy - (font.ascent : Int) → y + oy - (font.ascent : Int) < 2147483648 →
      ∃ tex right bottom more,
        (gr_text char_signed unicode0 g (fuel + 1) x y (utf8_encode c ++ rest) bold).calls =
          text_setup ++ [GGLCall.bindTexture tex,
            GGLCall.texCoord2i (0 - (x + ox)) (0 - (y + oy - (font.ascent : Int))),
            GGLCall.recti (x + ox) (y + oy - (font.ascent : Int)) right bottom] ++ more) ∧
    gr_fb_width g = (dev.xres : Int) - 2 * ox ∧
    gr_fb_height g = (dev.yres : Int) - 2 * oy := by
  intro g ox oy
  obtain ⟨hctx0, hfont0, hw0, hh0, hox, hoy⟩ := gr_init_overscan PIXEL_SIZE font percent dev
  have hctx : g.gr_context = true := hctx0
  have hfont : g.gr_font = font := hfont0
  have hw : g.fb0_width = dev.xres := hw0
  have hh : g.fb0_height = dev.yres := hh0
  obtain ⟨ex, ex0, ex1⟩ := overscan_inset dev.xres percent hp0 hp hxres
  obtain ⟨ey, ey0, ey1⟩ := overscan_inset dev.yres percent hp0 hp hyres
  have hgx : g.overscan_offset_x = ox := hox.trans ex
  have hgy : g.overscan_offset_y = oy := hoy.trans ey
  refine ⟨hgx, hgy, ?_, ?_, ?_, ?_, ?_, ?_⟩
  · intro x1 y1 x2 y2
    simp only [gr_fill, hgx, hgy]
  · intro src sx sy w h dx dy
    simp only [gr_blit, hctx, hgx, hgy]
  · intro icon x y
    simp only [gr_texticon, hctx, hgx, hgy, gr_get_width, gr_get_height]
  · intro sg u0 fuel x y c rest bold h20 hc ht1 ht2
    have htop : int_sub_unsigned (y + oy) font.ascent = y + oy - (font.ascent : Int) :=
      to_int_to_unsigned_of_range _ ht1 ht2
    unfold gr_text
    simp only [hgx, hgy, hfont, htop]
    rw [loop_step_draw sg u0 font (utf8_encode c ++ rest) _ fuel 0 _ c rest rfl h20 hc]
    exact ⟨_, _, _, _, by simp only [glyph_draw, text_setup, List.append_assoc]; rfl⟩
  · show to_int (to_unsigned ((g.fb0_width : Int) - 2 * g.overscan_offset_x)) = _
    rw [hw, hgx]
    exact to_int_to_unsigned_of_range _ (by omega) (by omega)
  · show to_int (to_unsigned ((g.fb0_height : Int) - 2 * g.overscan_offset_y)) = _
    rw [hh, hgy]
    exact to_int_to_unsigned_of_range _ (by omega) (by omega)

/-- Witness of C9: the 540 x 960 device at 0% overscan has a usable size of 540 x 960. -/
theorem overscan_constant_offset_witness :
    gr_fb_width sample_globals = ((540 : Nat) : Int) - 2 * (((540 : Nat) : Int) * 0 / 100) ∧
      gr_fb_height sample_globals = ((960 : Nat) : Int) - 2 * (((960 : Nat) : Int) * 0 / 100) ∧
      gr_fb_width sample_globals = 540 ∧ gr_fb_height sample_globals = 960 :=
  ⟨(overscan_constant_offset 2 sample_font 0 sample_device (by decide) (by decide) (by decide)
      (by decide)).2.2.2.2.2.2.1,
    (overscan_constant_offset 2 sample_font 0 sample_device (by decide) (by decide) (by decide)
      (by decide)).2.2.2.2.2.2.2,
    by decide, by decide⟩

theorem atoi_digits_append (ds rest : List Nat) (hd : ∀ d ∈ ds, isdigit d = true) :
    ∀ acc, atoi_digits acc (ds ++ rest) =
      atoi_digits (ds.foldl (fun a d => a * 10 + (d - 0x30)) acc) rest := by
  induction ds with
  | nil => intro acc; rfl
  | cons d ds ih =>
    intro acc
    rw [List.cons_append, atoi_digits, if_pos (hd d (List.mem_cons_self _ _)),
      ih (fun e he => hd e (List.mem_cons_of_mem _ he)), List.foldl_cons]

theorem atoi_digits_stop (acc : Nat) (rest : List Nat)
    (h : ∀ b, rest.head? = some b → isdigit b = false) : atoi_digits acc rest = acc := by
  cases rest with
  | nil => rfl
  | cons b t =>
    have hb := h b rfl
    rw [atoi_digits, hb]
    rfl

theorem skip_space_append (ws rest : List Nat) (hws : ∀ b ∈ ws, isspace b = true) :
    skip_space (ws ++ rest) = skip_space rest := by
  induction ws with
  | nil => rfl
  | cons b ws ih =>
    rw [List.cons_append, skip_space, if_pos (hws b (List.mem_cons_self _ _)),
      ih (fun e he => hws e (List.mem_cons_of_mem _ he))]

theorem digit_facts (d : Nat) (h : isdigit d = true) :
    isspace d = false ∧ d ≠ 0 ∧ d ≠ 0x20 ∧ d ≠ 0x2D ∧ d ≠ 0x2B := by
  simp only [isdigit, Bool.and_eq_true, decide_eq_true_eq] at h
  refine ⟨?_, by omega, by omega, by omega, by omega⟩
  simp only [isspace, Bool.or_eq_false_iff, beq_eq_false_iff_ne, Bool.and_eq_false_iff,
    decide_eq_false_iff_not]
  exact ⟨by omega, Or.inr (by omega)⟩

/-- C `atoi` on optional white space, a non-empty string of digits and a rest that does
not go on with a digit: the value of the digits, when it fits an `int`. -/
theorem atoi_decimal (ws ds rest : List Nat) (hws : ∀ b ∈ ws, isspace b = true)
    (hd : ∀ d ∈ ds, isdigit d = true) (hne : ds ≠ [])
    (hrest : ∀ b, rest.head? = some b → isdigit b = false)
    (hv : decimal_value ds < 2147483648) :
    atoi (ws ++ (ds ++ rest)) = (decimal_value ds : Int) := by
  obtain ⟨d, t, rfl⟩ := List.exists_cons_of_ne_nil hne
  obtain ⟨hsp, -, -, hm, hpl⟩ := digit_facts d (hd d (List.mem_cons_self _ _))
  have hskip : skip_space (ws ++ (d :: t ++ rest)) = d :: t ++ rest := by
    rw [skip_space_append ws _ hws, List.cons_append, skip_space, hsp]
    rfl
  unfold atoi
  simp only [hskip]
  have hb : byte_at (d :: t ++ rest) 0 = d := rfl
  rw [hb, if_neg hm, if_neg hpl, atoi_digits_append _ _ hd, atoi_digits_stop _ _ hrest]
  unfold clamp_int
  unfold decimal_value at hv ⊢
  rw [if_neg (by omega), if_neg (by omega)]

theorem strpbrk_space_digits (ds rest : List Nat) (hd : ∀ d ∈ ds, isdigit d = true) :
    strpbrk_space (ds ++ 0x20 :: rest) = some (0x20 :: rest) := by
  induction ds with
  | nil => rfl
  | cons d ds ih =>
    obtain ⟨-, h0, h20, -, -⟩ := digit_facts d (hd d (List.mem_cons_self _ _))
    rw [List.cons_append, strpbrk_space, if_neg h0, if_neg h20,
      ih (fun e he => hd e (List.mem_cons_of_mem _ he))]


/-- C11: after `setDisplaySplit` has read a text `<left> <right>` (digits, a space,
optional further white space, digits, then nothing or a byte that is no digit; shorter
than the 64-byte buffer; both values below `2 ^ 31`), `getLeftSplit()` is `left` when
`left` is non-zero and `xres / 2` otherwise, `getRightSplit()` is `right`, and
`isDisplaySplit()` holds exactly when `xres > 2048` or `right` is non-zero.  When the
attribute cannot be opened or nothing can be read, the splits keep their initial `0`:
`getLeftSplit()` is `xres / 2` and `getRightSplit()` is `0`. -/
theorem display_split_accessors (g : Globals) (ds1 ws ds2 tail : List Nat)
    (hd1 : ∀ d ∈ ds1, isdigit d = true) (hne1 : ds1 ≠ [])
    (hws : ∀ b ∈ ws, isspace b = true)
    (hd2 : ∀ d ∈ ds2, isdigit d = true) (hne2 : ds2 ≠ [])
    (htail : ∀ b, tail.head? = some b → isdigit b = false)
    (hlen : (ds1 ++ 0x20 :: (ws ++ (ds2 ++ tail))).length < 64)
    (hv1 : decimal_value ds1 < 2147483648) (hv2 : decimal_value ds2 < 2147483648)
    (hx : g.vi_xres < 4294967296) :
    let g1 := setDisplaySplit g (some (ds1 ++ 0x20 :: (ws ++ (ds2 ++ tail))))
    getLeftSplit g1 =
        (if decimal_value ds1 ≠ 0 then (decimal_value ds1 : Int)
         else ((g.vi_xres / 2 : Nat) : Int)) ∧
      getRightSplit g1 = (decimal_value ds2 : Int) ∧
      (isDisplaySplit g1 = true ↔ (g.vi_xres > 2048 ∨ decimal_value ds2 ≠ 0)) ∧
      (∀ file, file = none ∨ file = some [] → g.leftSplit = 0 → g.rightSplit = 0 →
        getLeftSplit (setDisplaySplit g file) = ((g.vi_xres / 2 : Nat) : Int) ∧
          getRightSplit (setDisplaySplit g file) = 0) := by
  intro g1
  have hhalf : to_int (g.vi_xres / 2) = ((g.vi_xres / 2 : Nat) : Int) := by
    unfold to_int; split_ifs <;> omega
  have htake : (ds1 ++ 0x20 :: (ws ++ (ds2 ++ tail))).take 64 =
      ds1 ++ 0x20 :: (ws ++ (ds2 ++ tail)) := List.take_of_length_le (by omega)
  have hlen0 : (ds1 ++ 0x20 :: (ws ++ (ds2 ++ tail))).length ≠ 0 := by
    rw [List.length_append, List.length_cons]; omega
  have hleft : atoi (ds1 ++ 0x20 :: (ws ++ (ds2 ++ tail))) = (decimal_value ds1 : Int) :=
    atoi_decimal [] ds1 _ (fun b hb => absurd hb (List.not_mem_nil b)) hd1 hne1
      (fun b hb => by
        rw [List.head?_cons, Option.some.injEq] at hb
        subst hb
        decide) hv1
  have hright : atoi ((0x20 :: (ws ++ (ds2 ++ tail))).drop 1) = (decimal_value ds2 : Int) :=
    atoi_decimal ws ds2 tail hws hd2 hne2 htail hv2
  have hg1 : g1 = { g with leftSplit := (decimal_value ds1 : Int),
                           rightSplit := (decimal_value ds2 : Int) } := by
    show setDisplaySplit g _ = _
    unfold setDisplaySplit
    simp only [htake, if_neg hlen0, strpbrk_space_digits ds1 _ hd1, hleft, hright]
  refine ⟨?_, ?_, ?_, ?_⟩
  · rw [hg1]
    simp only [getLeftSplit, hhalf]
    by_cases h : decimal_value ds1 = 0 <;> simp [h]
  · rw [hg1]
    rfl
  · rw [hg1]
    simp only [isDisplaySplit, getRightSplit]
    split_ifs with h1 h2
    · simp [h1]
    · simp only [true_iff]
      exact Or.inr (fun e => h2 (by rw [e]; rfl))
    · simp only [Bool.false_eq_true, false_iff, not_or]
      refine ⟨h1, fun hne => h2 ?_⟩
      exact_mod_cast hne
  · intro file hfile hl hr
    rcases hfile with rfl | rfl
    · simp [setDisplaySplit, getLeftSplit, getRightSplit, hl, hr, hhalf]
    · simp [setDisplaySplit, getLeftSplit, getRightSplit, hl, hr, hhalf]

/-- Witness of C11: the text `720 1440`. -/
theorem display_split_accessors_witness :
    getLeftSplit (setDisplaySplit sample_globals
        (some ([0x37, 0x32, 0x30] ++ 0x20 :: ([] ++ ([0x31, 0x34, 0x34, 0x30] ++ []))))) =
        (if decimal_value [0x37, 0x32, 0x30] ≠ 0 then (decimal_value [0x37, 0x32, 0x30] : Int)
         else ((sample_globals.vi_xres / 2 : Nat) : Int)) ∧
      getLeftSplit (setDisplaySplit sample_globals
        (some [0x37, 0x32, 0x30, 0x20, 0x31, 0x34, 0x34, 0x30])) = 720 ∧
      getRightSplit (setDisplaySplit sample_globals
        (some [0x37, 0x32, 0x30, 0x20, 0x31, 0x34, 0x34, 0x30])) = 1440 ∧
      isDisplaySplit (setDisplaySplit sample_globals
        (some [0x37, 0x32, 0x30, 0x20, 0x31, 0x34, 0x34, 0x30])) = true :=
  ⟨(display_split_accessors sample_globals [0x37, 0x32, 0x30] [] [0x31, 0x34, 0x34, 0x30] []
      (by decide) (by decide) (by decide) (by decide) (by decide)
      (fun b hb => by cases hb) (by decide) (by decide) (by decide) (by decide)).1,
    by decide, by decide, by decide⟩

end Minui
